import Mathlib

/-!
A verification development for the tcad-scraper maintenance scripts:
the console-to-logger rewriters (`server/batch-migrate.py`,
`scripts/batch-migrate-client.py`) and the failed-job retry loop
(`scripts/retry-failed-jobs.py`).

Text is modelled as `List Char` (a Python `str` is a sequence of
characters).  The regex `\bLITERAL\b` used by `re.sub` is embedded as a
left-to-right scan replacing leftmost non-overlapping occurrences of the
literal whose two ends lie on word boundaries; `\w` is modelled as
ASCII alphanumeric or underscore (the scripts' patterns and the texts of
interest are ASCII).  File I/O is modelled by passing file contents in
and returning the new contents plus the modified flag; the scripts write
the file exactly when they return `True`.
-/

/-- Python's `\w` word-character class (ASCII fragment): letters, digits,
underscore. -/
def isWordChar (c : Char) : Bool := c.isAlphanum || c == '_'

/-- Word-character status of an optional character; the absent character
(string edge) counts as a non-word position, as in `re`'s `\b`. -/
def wOpt : Option Char → Bool
  | some c => isWordChar c
  | none => false

/-- Does the literal pattern `hd :: tl` match at the current scan position?
`pw` records whether the character immediately before the position is a
word character.  This is `re`'s `\bP\b` at one position: the literal must
be a prefix of the remaining text and both ends must be word boundaries
(adjacent word-character statuses differ). -/
def matchHere (hd : Char) (tl : List Char) (pw : Bool) (s : List Char) : Bool :=
  (hd :: tl).isPrefixOf s
    && (pw != isWordChar hd)
    && (isWordChar (tl.getLastD hd) != wOpt ((s.drop (tl.length + 1)).head?))

/-- The scan of `re.sub(r'\bP\b', repl, s)` for the literal `P = hd :: tl`:
replace each leftmost word-bounded occurrence and continue after it
(the replacement text is not rescanned).  `fuel` only forces structural
termination; with `fuel ≥ s.length` it never runs out because every step
consumes at least one character. -/
def subF (hd : Char) (tl repl : List Char) : Nat → Bool → List Char → List Char
  | _, _, [] => []
  | 0, _, s => s
  | fuel + 1, pw, c :: rest =>
    if matchHere hd tl pw (c :: rest) then
      repl ++ subF hd tl repl fuel (isWordChar (tl.getLastD hd)) (rest.drop tl.length)
    else
      c :: subF hd tl repl fuel (isWordChar c) rest

/-- `re.sub(rf'\b{re.escape(pat)}\b', repl, s)` for a literal `pat`
(the scripts' patterns are nonempty literals). -/
def reSubWord (pat repl s : List Char) : List Char :=
  match pat with
  | [] => s
  | hd :: tl => subF hd tl repl s.length false s

/-- Scan deciding whether some word-bounded occurrence of `hd :: tl`
exists (every position is inspected; nothing is skipped). -/
def occF (hd : Char) (tl : List Char) : Bool → List Char → Bool
  | _, [] => false
  | pw, c :: rest => matchHere hd tl pw (c :: rest) || occF hd tl (isWordChar c) rest

/-- Does the literal `pat` occur word-bounded anywhere in `s`? -/
def occursPat (pat s : List Char) : Bool :=
  match pat with
  | [] => false
  | hd :: tl => occF hd tl false s

/-- Python's `needle in hay` substring test. -/
def containsSub (hay needle : List Char) : Bool :=
  needle.isPrefixOf hay ||
    match hay with
    | [] => false
    | _ :: t => containsSub t needle

/-- `CONSOLE_TO_LOGGER_MAP` from `server/batch-migrate.py` (a Python dict
iterates in insertion order). -/
def CONSOLE_TO_LOGGER_MAP : List (List Char × List Char) :=
  [("console.log".data, "logger.info".data),
   ("console.error".data, "logger.error".data),
   ("console.warn".data, "logger.warn".data),
   ("console.info".data, "logger.info".data),
   ("console.debug".data, "logger.debug".data)]

/-- `IMPORT_PATH_RULES` from `server/batch-migrate.py`. -/
def IMPORT_PATH_RULES : List (List Char × List Char) :=
  [("/lib/".data, "import logger from './logger';".data),
   ("/scripts/".data, "import logger from '../lib/logger';".data),
   ("/cli/".data, "import logger from '../lib/logger';".data),
   ("/services/".data, "import logger from '../lib/logger';".data),
   ("/middleware/".data, "import logger from '../lib/logger';".data),
   ("/routes/".data, "import logger from '../lib/logger';".data),
   ("/utils/".data, "import logger from '../lib/logger';".data)]

/-- `DEFAULT_LOGGER_IMPORT` from `server/batch-migrate.py`. -/
def DEFAULT_LOGGER_IMPORT : List Char := "import logger from '../lib/logger';".data

/-- `_apply_console_replacements`: apply every rule of the map in order. -/
def applyConsoleReplacements (content : List Char) : List Char :=
  CONSOLE_TO_LOGGER_MAP.foldl (fun acc pr => reSubWord pr.1 pr.2 acc) content

/-- `_get_logger_import_for_path`: first path rule whose substring matches,
else the default import. -/
def getLoggerImportForPath (filepath : List Char) : List Char :=
  match IMPORT_PATH_RULES.find? (fun pr => containsSub filepath pr.1) with
  | some pr => pr.2
  | none => DEFAULT_LOGGER_IMPORT

/-- Python `str.split('\n')`: always returns at least one piece. -/
def splitNl : List Char → List (List Char)
  | [] => [[]]
  | c :: rest =>
    match splitNl rest with
    | [] => [[]]
    | l :: ls => if c = '\n' then [] :: l :: ls else (c :: l) :: ls

/-- Python `'\n'.join(lines)`. -/
def joinNl : List (List Char) → List Char
  | [] => []
  | [l] => l
  | l :: ls => l ++ '\n' :: joinNl ls

/-- Python `str.isspace` characters relevant here (ASCII fragment of
`str.strip()`'s whitespace set). -/
def pyIsSpace (c : Char) : Bool :=
  c == ' ' || c == '\t' || c == '\n' || c == '\r' || c == '\x0b' || c == '\x0c'

/-- Python `str.strip()`. -/
def pyStrip (l : List Char) : List Char :=
  ((l.dropWhile pyIsSpace).reverse.dropWhile pyIsSpace).reverse

/-- The test applied to each line by `_find_last_import_index`:
`line.strip().startswith('import ') and not line.strip().startswith('import type')`. -/
def isImportLine (line : List Char) : Bool :=
  ("import ".data).isPrefixOf (pyStrip line)
    && !(("import type".data).isPrefixOf (pyStrip line))

/-- `_find_last_import_index`: index of the last import line, `-1` when
none exists (the `enumerate` loop keeps overwriting the index). -/
def findLastImportIndex (lines : List (List Char)) : Int :=
  (lines.foldl
    (fun (st : Int × Int) line => (st.1 + 1, if isImportLine line then st.1 else st.2))
    (0, -1)).2

/-- Python `list.insert(i, x)` for a non-negative index `i` (clamps to an
append when `i` exceeds the length, as Python does). -/
def pyInsert (l : List (List Char)) (i : Nat) (x : List Char) : List (List Char) :=
  l.take i ++ x :: l.drop i

/-- `_insert_import` of the server script: after the last import if one
exists, else after a shebang first line (skipping one following blank
line), else as the new first line.  `lines[0]` and `lines[1]` are total
in the source because `str.split` never returns an empty list and the
`lines[1]` access is guarded by `len(lines) > 1`; they are embedded with
defaults that are only reachable under those same guards. -/
def insertImport (lines : List (List Char)) (loggerImport : List Char)
    (lastImportIdx : Int) : List (List Char) :=
  if 0 ≤ lastImportIdx then
    pyInsert lines (lastImportIdx.toNat + 1) loggerImport
  else if ("#!".data).isPrefixOf (lines.headD []) then
    pyInsert lines
      (if decide (1 < lines.length) && (pyStrip (lines.getD 1 []) == []) then 2 else 1)
      loggerImport
  else
    pyInsert lines 0 loggerImport

/-- Result of one `migrate_file` call: the contents the file holds
afterwards and the returned flag.  The script writes the file exactly
when it returns `True`, so `modified` is also "the file was written". -/
structure MigrateResult where
  newContent : List Char
  modified : Bool
  deriving DecidableEq, Repr

/-- The existing-import marker substring searched for over the whole text. -/
def loggerImportMarker : List Char := "import logger from".data

/-- `migrate_file` of `server/batch-migrate.py`, with file contents passed
in instead of read from disk. -/
def migrate_file (filepath content : List Char) : MigrateResult :=
  let original_content := content
  let has_logger_import := containsSub content loggerImportMarker
  let content1 := applyConsoleReplacements content
  if content1 == original_content then
    ⟨original_content, false⟩
  else
    let content2 :=
      if !has_logger_import then
        let lines := splitNl content1
        let logger_import := getLoggerImportForPath filepath
        let last_import_idx := findLastImportIndex lines
        joinNl (insertImport lines logger_import last_import_idx)
      else content1
    ⟨content2, true⟩

/-- The import chosen by `migrate_file` of the client script from its
inline `if/elif` chain over the file path. -/
def clientLoggerImportForPath (filepath : List Char) : List Char :=
  if containsSub filepath "/components/".data then
    "import logger from '../lib/logger';".data
  else if containsSub filepath "/services/".data then
    "import logger from '../lib/logger';".data
  else if containsSub filepath "/lib/".data then
    "import logger from './logger';".data
  else if (".tsx".data).isSuffixOf filepath || (".ts".data).isSuffixOf filepath then
    "import logger from './lib/logger';".data
  else
    "import logger from './lib/logger';".data

/-- `migrate_file` of `scripts/batch-migrate-client.py`.  The client
variant applies the same five substitutions inline, checks the marker
twice (`'...' in content or "..." in content` with identical strings),
and inserts the import after the last import line or at the very
beginning - it has no shebang branch. -/
def client_migrate_file (filepath content : List Char) : MigrateResult :=
  let original_content := content
  let has_logger_import :=
    containsSub content loggerImportMarker || containsSub content loggerImportMarker
  let c1 := reSubWord "console.log".data "logger.info".data content
  let c2 := reSubWord "console.error".data "logger.error".data c1
  let c3 := reSubWord "console.warn".data "logger.warn".data c2
  let c4 := reSubWord "console.info".data "logger.info".data c3
  let c5 := reSubWord "console.debug".data "logger.debug".data c4
  if c5 == original_content then
    ⟨original_content, false⟩
  else
    let content' :=
      if !has_logger_import then
        let lines := splitNl c5
        let last_import_idx := findLastImportIndex lines
        let logger_import := clientLoggerImportForPath filepath
        joinNl
          (if 0 ≤ last_import_idx then
            pyInsert lines (last_import_idx.toNat + 1) logger_import
          else
            pyInsert lines 0 logger_import)
      else c5
    ⟨content', true⟩

/-- What one path's file system entry can be: missing, present but
raising on `open`/`read` (permissions, decode failure, ...), or
readable with the given contents. -/
inductive FileRead where
  | absent
  | readError
  | content (c : List Char)

/-- The `main` loop of `server/batch-migrate.py` over the given file
arguments: missing paths and paths containing `migrate-to-logger.ts`
are skipped; otherwise `migrate_file` runs with no surrounding
`try`/`except`, so a read error propagates as `Except.error`, aborting
the remaining paths.  On success it returns the migrated count. -/
def serverBatch (fs : List Char → FileRead) (files : List (List Char)) :
    Except (List Char) Nat :=
  files.foldlM
    (fun migrated_count filepath =>
      match fs filepath with
      | .absent => pure migrated_count
      | .readError =>
        if containsSub filepath "migrate-to-logger.ts".data then pure migrated_count
        else Except.error filepath
      | .content c =>
        if containsSub filepath "migrate-to-logger.ts".data then pure migrated_count
        else pure (migrated_count + if (migrate_file filepath c).modified then 1 else 0))
    0

/-- Process exit status of `python3 batch-migrate.py <files...>`:
`sys.exit(1)` with a usage message when no file arguments are given;
`0` after a completed run; `1` when an uncaught exception escapes
`main` (CPython exits with status 1 on an unhandled exception). -/
def serverExitCode (fs : List Char → FileRead) (files : List (List Char)) : Nat :=
  if files.length < 1 then 1
  else
    match serverBatch fs files with
    | .ok _ => 0
    | .error _ => 1

/-- One record of the `GET /api/properties/history` response's `data`
array, restricted to the fields the retry script reads. -/
structure JobRecord where
  status : String
  searchTerm : String

/-- Outcome of one `requests.post` call: an HTTP status code, or a raised
exception. -/
inductive PostResult where
  | status (code : Nat)
  | exc

/-- Did the POST response signal acceptance (`status_code == 202`)? -/
def isAccepted : PostResult → Bool
  | .status code => code == 202
  | .exc => false

/-- `retry-failed-jobs.py`: the unique failed search terms.  Python's
`list(set(...))` iterates the set in an arbitrary order; it is modelled
canonically by `dedup` (same elements, no duplicates). -/
def failedTerms (data : List JobRecord) : List String :=
  (((data.filter (fun job => job.status == "failed")).map (fun job => job.searchTerm))).dedup

/-- Tally of the retry loop: counters, the POSTs issued in order, and the
number of 6-second `time.sleep` calls performed. -/
structure RetryTally where
  success : Nat
  failed : Nat
  posts : List String
  sleeps : Nat
  deriving Repr, DecidableEq

/-- The retry loop of `retry-failed-jobs.py`: one POST per term; a 202
response increments `success`, any other status increments `failed`, a
raised request exception is caught, increments `failed`, and the loop
continues; `time.sleep(6)` runs after every request on all three paths. -/
def retryLoop (post : String → PostResult) (terms : List String) : RetryTally :=
  terms.foldl
    (fun acc term =>
      match post term with
      | .status code =>
        if code == 202 then
          { acc with success := acc.success + 1, posts := acc.posts ++ [term],
                     sleeps := acc.sleeps + 1 }
        else
          { acc with failed := acc.failed + 1, posts := acc.posts ++ [term],
                     sleeps := acc.sleeps + 1 }
      | .exc =>
        { acc with failed := acc.failed + 1, posts := acc.posts ++ [term],
                   sleeps := acc.sleeps + 1 })
    ⟨0, 0, [], 0⟩

/-!  ## Basic lemmas about the scan  -/

/-- Unfolding of `List.isPrefixOf` on two cons cells. -/
theorem isPrefixOf_cons_cons (a b : Char) (as bs : List Char) :
    (a :: as).isPrefixOf (b :: bs) = ((a == b) && as.isPrefixOf bs) := rfl

/-- A list is a prefix of itself followed by anything. -/
theorem isPrefixOf_append_self (l t : List Char) : l.isPrefixOf (l ++ t) = true := by
  induction l with
  | nil => simp [List.isPrefixOf]
  | cons a as ih => simp [isPrefixOf_cons_cons, ih]

/-- If no word-bounded occurrence exists, the substitution scan returns
its input unchanged (for any fuel). -/
theorem subF_of_occF_false (hd : Char) (tl repl : List Char) :
    ∀ (f : Nat) (pw : Bool) (s : List Char),
      occF hd tl pw s = false → subF hd tl repl f pw s = s := by
  intro f
  induction f with
  | zero => intro pw s _; cases s <;> rfl
  | succ f ih =>
    intro pw s h
    cases s with
    | nil => rfl
    | cons c rest =>
      rw [occF] at h
      rcases Bool.or_eq_false_iff.mp h with ⟨h1, h2⟩
      rw [subF, if_neg (by simp [h1]), ih _ _ h2]

/-- If a word-bounded occurrence exists and the replacement starts with a
character different from the pattern's first character, the substitution
changes the text. -/
theorem subF_ne_of_occF_true (hd : Char) (tl : List Char) (r0 : Char) (rtl : List Char)
    (h0 : r0 ≠ hd) :
    ∀ (f : Nat) (pw : Bool) (s : List Char),
      s.length ≤ f → occF hd tl pw s = true → subF hd tl (r0 :: rtl) f pw s ≠ s := by
  intro f
  induction f with
  | zero =>
    intro pw s hf h
    cases s with
    | nil => simp [occF] at h
    | cons c rest => simp at hf
  | succ f ih =>
    intro pw s hf h
    cases s with
    | nil => simp [occF] at h
    | cons c rest =>
      rw [occF] at h
      by_cases hm : matchHere hd tl pw (c :: rest) = true
      · rw [subF, if_pos hm]
        have hpre : (hd :: tl).isPrefixOf (c :: rest) = true := by
          have := hm; rw [matchHere] at this
          exact (Bool.and_eq_true_iff.mp (Bool.and_eq_true_iff.mp this).1).1
        have hc : hd = c := by
          rw [isPrefixOf_cons_cons] at hpre
          exact eq_of_beq (Bool.and_eq_true_iff.mp hpre).1
        intro heq
        have : r0 = c := by
          have := congrArg (fun l => l.head?) heq
          simpa using this
        exact h0 (this.trans hc.symm)
      · rw [subF, if_neg hm]
        have h2 : occF hd tl (isWordChar c) rest = true := by
          rcases Bool.or_eq_true_iff.mp h with h' | h'
          · exact absurd h' hm
          · exact h'
        intro heq
        exact ih (isWordChar c) rest (by simpa using hf) h2 (by simpa using heq)

/-- The replacement chain spelled out (the fold over the literal map
unfolds definitionally). -/
theorem applyConsoleReplacements_eq (c : List Char) :
    applyConsoleReplacements c =
      reSubWord "console.debug".data "logger.debug".data
        (reSubWord "console.info".data "logger.info".data
          (reSubWord "console.warn".data "logger.warn".data
            (reSubWord "console.error".data "logger.error".data
              (reSubWord "console.log".data "logger.info".data c)))) := rfl

/-- Does any of the five recognized logging-call patterns occur
word-bounded in the text? -/
def occursAnyRule (c : List Char) : Bool :=
  occursPat "console.log".data c || occursPat "console.error".data c
    || occursPat "console.warn".data c || occursPat "console.info".data c
    || occursPat "console.debug".data c

/-- A text in which no recognized pattern occurs is left unchanged by the
whole replacement chain. -/
theorem applyConsoleReplacements_of_no_occ (c : List Char)
    (h : occursAnyRule c = false) : applyConsoleReplacements c = c := by
  have h1 : occursPat "console.log".data c = false := by
    revert h; unfold occursAnyRule; intro h
    simpa using congrArg (fun b => b) (Bool.or_eq_false_iff.mp
      (Bool.or_eq_false_iff.mp (Bool.or_eq_false_iff.mp
        (Bool.or_eq_false_iff.mp h).1).1).1).1
  have h2 : occursPat "console.error".data c = false := by
    revert h; unfold occursAnyRule; intro h
    simpa using (Bool.or_eq_false_iff.mp (Bool.or_eq_false_iff.mp
      (Bool.or_eq_false_iff.mp (Bool.or_eq_false_iff.mp h).1).1).1).2
  have h3 : occursPat "console.warn".data c = false := by
    revert h; unfold occursAnyRule; intro h
    simpa using (Bool.or_eq_false_iff.mp (Bool.or_eq_false_iff.mp
      (Bool.or_eq_false_iff.mp h).1).1).2
  have h4 : occursPat "console.info".data c = false := by
    revert h; unfold occursAnyRule; intro h
    simpa using (Bool.or_eq_false_iff.mp (Bool.or_eq_false_iff.mp h).1).2
  have h5 : occursPat "console.debug".data c = false := by
    revert h; unfold occursAnyRule; intro h
    simpa using (Bool.or_eq_false_iff.mp h).2
  rw [applyConsoleReplacements_eq]
  rw [show reSubWord "console.log".data "logger.info".data c = c from
    subF_of_occF_false _ _ _ _ _ _ h1]
  rw [show reSubWord "console.error".data "logger.error".data c = c from
    subF_of_occF_false _ _ _ _ _ _ h2]
  rw [show reSubWord "console.warn".data "logger.warn".data c = c from
    subF_of_occF_false _ _ _ _ _ _ h3]
  rw [show reSubWord "console.info".data "logger.info".data c = c from
    subF_of_occF_false _ _ _ _ _ _ h4]
  exact subF_of_occF_false _ _ _ _ _ _ h5

/-!  ## Claim C2: write back iff the replaced text differs  -/

/-- C2: a file is written back (`modified = true`, which is exactly when
the scripts execute the write) if and only if the text after applying all
replacement rules differs from the text originally read; when the result
is unchanged the contents on disk stay byte-identical; in particular a
text in which no recognized logging-call pattern occurs is left
untouched with an `Unchanged` outcome.  Holds for both the server and
the client rewriter. -/
theorem migrate_writes_iff_replacements_changed (fp c : List Char) :
    ((migrate_file fp c).modified = true ↔ applyConsoleReplacements c ≠ c)
    ∧ ((migrate_file fp c).modified = false → (migrate_file fp c).newContent = c)
    ∧ (occursAnyRule c = false →
        (migrate_file fp c).modified = false ∧ (migrate_file fp c).newContent = c)
    ∧ ((client_migrate_file fp c).modified = true ↔ applyConsoleReplacements c ≠ c)
    ∧ ((client_migrate_file fp c).modified = false →
        (client_migrate_file fp c).newContent = c) := by
  have hclient : ∀ r : MigrateResult, client_migrate_file fp c = r →
      (r.modified = true ↔ applyConsoleReplacements c ≠ c) ∧
      (r.modified = false → r.newContent = c) := by
    intro r hr
    rw [client_migrate_file, ← applyConsoleReplacements_eq] at hr
    by_cases h : applyConsoleReplacements c == c
    · rw [if_pos h] at hr
      constructor
      · rw [← hr]; simp [eq_of_beq h]
      · intro _; rw [← hr]
    · rw [if_neg h] at hr
      constructor
      · rw [← hr]; simpa using ne_of_beq_false (Bool.not_eq_true _ ▸ (by simpa using h))
      · intro hmod; rw [← hr] at hmod; simp at hmod
  have hserver : ((migrate_file fp c).modified = true ↔ applyConsoleReplacements c ≠ c)
      ∧ ((migrate_file fp c).modified = false → (migrate_file fp c).newContent = c) := by
    rw [migrate_file]
    by_cases h : applyConsoleReplacements c == c
    · rw [if_pos h]
      refine ⟨by simp [eq_of_beq h], fun _ => rfl⟩
    · rw [if_neg h]
      refine ⟨by simpa using ne_of_beq_false (by simpa using h), fun hmod => by simp at hmod⟩
  refine ⟨hserver.1, hserver.2, ?_, (hclient _ rfl).1, (hclient _ rfl).2⟩
  intro hno
  have hfix : applyConsoleReplacements c = c := applyConsoleReplacements_of_no_occ c hno
  have hmod : (migrate_file fp c).modified = false := by
    by_contra hb
    exact hserver.1.mp (Bool.of_not_eq_false hb) hfix
  exact ⟨hmod, hserver.2 hmod⟩

/-- Witness for C2 at a concrete pattern-free text. -/
theorem migrate_writes_iff_replacements_changed_witness :
    occursAnyRule "const x = 1;".data = false ∧
    (migrate_file "app/routes/x.ts".data "const x = 1;".data).modified = false ∧
    (migrate_file "app/routes/x.ts".data "const x = 1;".data).newContent = "const x = 1;".data := by
  refine ⟨by decide, ?_⟩
  have h := (migrate_writes_iff_replacements_changed "app/routes/x.ts".data "const x = 1;".data).2.2.1
  exact h (by decide)

/-!  ## Claim C10: the import check is a whole-text substring search  -/

/-- C10: whenever the literal marker substring `import logger from`
appears anywhere in the original text - no matter where, e.g. inside a
comment or string - neither rewriter inserts an import line: the new
contents are exactly the replaced text.  Detection is a whole-text
substring search, not a check for an import declaration. -/
theorem marker_substring_suppresses_import (fp c : List Char)
    (h : containsSub c loggerImportMarker = true) :
    (migrate_file fp c).newContent = applyConsoleReplacements c
    ∧ (client_migrate_file fp c).newContent = applyConsoleReplacements c := by
  constructor
  · rw [migrate_file]
    by_cases hc : applyConsoleReplacements c == c
    · rw [if_pos hc]; exact (eq_of_beq hc).symm
    · rw [if_neg hc]; simp [h]
  · rw [client_migrate_file, ← applyConsoleReplacements_eq]
    by_cases hc : applyConsoleReplacements c == c
    · rw [if_pos hc]; exact (eq_of_beq hc).symm
    · rw [if_neg hc]; simp [h]

/-- Witness for C10: the marker appears only inside a comment, a rewrite
occurs, and still no import line is inserted by either variant. -/
theorem marker_substring_suppresses_import_witness :
    containsSub "// import logger from 'x'\nconsole.log(1);".data loggerImportMarker = true
    ∧ (migrate_file "a/routes/b.ts".data "// import logger from 'x'\nconsole.log(1);".data).newContent
        = applyConsoleReplacements "// import logger from 'x'\nconsole.log(1);".data
    ∧ (client_migrate_file "a/routes/b.ts".data "// import logger from 'x'\nconsole.log(1);".data).newContent
        = applyConsoleReplacements "// import logger from 'x'\nconsole.log(1);".data := by
  refine ⟨by decide, ?_⟩
  exact marker_substring_suppresses_import "a/routes/b.ts".data
    "// import logger from 'x'\nconsole.log(1);".data (by decide)

/-!  ## Claims C1 and C8: the batch driver does not guard `migrate_file`  -/

/-- A two-file world: `bad.ts` exists but raises on read (e.g. a
permission or decode error), `good.ts` is a readable file that needs
migration. -/
def fsDemo : List Char → FileRead := fun fp =>
  if fp = "bad.ts".data then .readError
  else if fp = "good.ts".data then .content "console.log(1);".data
  else .absent

/-- C1 (code bug): the server batch driver has no `try`/`except` around
`migrate_file`, so a read error on one path aborts the whole run instead
of being caught, reported and skipped: with `bad.ts` raising, the run
over `[bad.ts, good.ts]` stops with the exception and `good.ts` - which
alone migrates fine - is never processed.  The same is true of the
client driver, whose `main` is identical in this respect. -/
theorem batch_error_aborts_run :
    serverBatch fsDemo ["bad.ts".data, "good.ts".data] = Except.error "bad.ts".data
    ∧ serverBatch fsDemo ["good.ts".data] = Except.ok 1 := by
  constructor <;> rfl

/-- C8 (code bug): with no file arguments the process exits non-zero as
claimed, but for a non-empty argument list the exit status is zero only
when no file-level exception escapes: an unreadable path makes the
uncaught exception terminate the process with status 1. -/
theorem exit_status_not_always_zero :
    serverExitCode fsDemo [] = 1
    ∧ serverExitCode fsDemo ["bad.ts".data, "good.ts".data] = 1
    ∧ serverExitCode fsDemo ["good.ts".data] = 0 := by
  refine ⟨rfl, ?_, ?_⟩ <;> rfl

/-!  ## Claim C9: the retry loop  -/

/-- One step of the retry fold, summarized by whether the POST was
accepted. -/
theorem retryStep_eq (post : String → PostResult) (t : String) (acc : RetryTally) :
    (match post t with
      | PostResult.status code =>
        if code == 202 then
          { acc with success := acc.success + 1, posts := acc.posts ++ [t],
                     sleeps := acc.sleeps + 1 }
        else
          { acc with failed := acc.failed + 1, posts := acc.posts ++ [t],
                     sleeps := acc.sleeps + 1 }
      | PostResult.exc =>
        { acc with failed := acc.failed + 1, posts := acc.posts ++ [t],
                   sleeps := acc.sleeps + 1 }) =
    { success := acc.success + (if isAccepted (post t) then 1 else 0),
      failed := acc.failed + (if isAccepted (post t) then 0 else 1),
      posts := acc.posts ++ [t],
      sleeps := acc.sleeps + 1 } := by
  rcases hp : post t with code | _
  · by_cases h202 : (code == 202) = true
    · simp [isAccepted, h202]
    · simp only [Bool.not_eq_true] at h202
      simp [isAccepted, h202]
  · simp [isAccepted]

/-- Characterization of the retry fold from an arbitrary starting tally. -/
theorem retryLoop_fold (post : String → PostResult) :
    ∀ (terms : List String) (acc : RetryTally),
      terms.foldl
        (fun acc term =>
          match post term with
          | .status code =>
            if code == 202 then
              { acc with success := acc.success + 1, posts := acc.posts ++ [term],
                         sleeps := acc.sleeps + 1 }
            else
              { acc with failed := acc.failed + 1, posts := acc.posts ++ [term],
                         sleeps := acc.sleeps + 1 }
          | .exc =>
            { acc with failed := acc.failed + 1, posts := acc.posts ++ [term],
                       sleeps := acc.sleeps + 1 })
        acc =
      { success := acc.success + (terms.filter (fun t => isAccepted (post t))).length,
        failed := acc.failed + (terms.filter (fun t => !isAccepted (post t))).length,
        posts := acc.posts ++ terms,
        sleeps := acc.sleeps + terms.length } := by
  intro terms
  induction terms with
  | nil => intro acc; simp
  | cons t ts ih =>
    intro acc
    rw [List.foldl_cons, retryStep_eq post t acc, ih]
    simp only [List.filter_cons, List.length_cons, RetryTally.mk.injEq]
    by_cases hacc : isAccepted (post t) = true
    · refine ⟨?_, ?_, ?_, ?_⟩ <;>
        first
          | omega
          | (simp [hacc]; omega)
          | simp [hacc]
    · simp only [Bool.not_eq_true] at hacc
      refine ⟨?_, ?_, ?_, ?_⟩ <;>
        first
          | omega
          | (simp [hacc]; omega)
          | simp [hacc]

/-- C9: the retry script POSTs exactly once per distinct `searchTerm`
among the fetched records whose status is `"failed"`; a POST counts as a
success exactly when the response status is 202, any other status or a
caught request exception counts as a failure without stopping the loop;
and a 6-second sleep runs once per request regardless of outcome. -/
theorem retry_posts_each_failed_term_once (data : List JobRecord)
    (post : String → PostResult) :
    (retryLoop post (failedTerms data)).posts = failedTerms data
    ∧ (failedTerms data).Nodup
    ∧ (∀ t, t ∈ failedTerms data ↔ ∃ j ∈ data, j.status = "failed" ∧ j.searchTerm = t)
    ∧ (retryLoop post (failedTerms data)).success
        = ((failedTerms data).filter (fun t => isAccepted (post t))).length
    ∧ (retryLoop post (failedTerms data)).failed
        = ((failedTerms data).filter (fun t => !isAccepted (post t))).length
    ∧ (retryLoop post (failedTerms data)).sleeps = (failedTerms data).length := by
  have hfold := retryLoop_fold post (failedTerms data) ⟨0, 0, [], 0⟩
  have hloop : retryLoop post (failedTerms data) =
      { success := ((failedTerms data).filter (fun t => isAccepted (post t))).length,
        failed := ((failedTerms data).filter (fun t => !isAccepted (post t))).length,
        posts := failedTerms data,
        sleeps := (failedTerms data).length } := by
    rw [retryLoop, hfold]; simp
  refine ⟨by rw [hloop], List.nodup_dedup _, ?_, by rw [hloop], by rw [hloop], by rw [hloop]⟩
  intro t
  unfold failedTerms
  rw [List.mem_dedup, List.mem_map]
  constructor
  · rintro ⟨j, hj, hterm⟩
    rw [List.mem_filter] at hj
    exact ⟨j, hj.1, by simpa using hj.2, hterm⟩
  · rintro ⟨j, hj, hstat, hterm⟩
    exact ⟨j, List.mem_filter.mpr ⟨hj, by simpa using hstat⟩, hterm⟩

/-!  ## Split/join line lemmas  -/

/-- `str.split('\n')` never yields an empty list. -/
theorem splitNl_ne_nil (s : List Char) : splitNl s ≠ [] := by
  cases s with
  | nil => simp [splitNl]
  | cons c rest =>
    rw [splitNl]
    rcases h : splitNl rest with _ | ⟨l, ls⟩
    · simp
    · by_cases hc : c = '\n' <;> simp [hc]

/-- Joining the split pieces restores the text. -/
theorem joinNl_splitNl (s : List Char) : joinNl (splitNl s) = s := by
  induction s with
  | nil => rfl
  | cons c rest ih =>
    rw [splitNl]
    rcases h : splitNl rest with _ | ⟨l, ls⟩
    · exact absurd h (splitNl_ne_nil rest)
    · rw [h] at ih
      by_cases hc : c = '\n'
      · subst hc
        simpa [joinNl] using ih
      · simp only [if_neg hc]
        cases ls with
        | nil => simp only [joinNl] at ih ⊢; rw [ih]
        | cons l' ls' => simp only [joinNl] at ih ⊢; rw [List.cons_append, ih]

/-- No piece of `str.split('\n')` contains a newline. -/
theorem splitNl_no_newline (s : List Char) : ∀ l ∈ splitNl s, '\n' ∉ l := by
  induction s with
  | nil => intro l hl; simp [splitNl] at hl; simp [hl]
  | cons c rest ih =>
    intro l hl
    rw [splitNl] at hl
    rcases h : splitNl rest with _ | ⟨l0, ls⟩
    · exact absurd h (splitNl_ne_nil rest)
    · rw [h] at hl
      by_cases hc : c = '\n'
      · simp only [if_pos hc] at hl
        rcases List.mem_cons.mp hl with hl | hl
        · simp [hl]
        · exact ih l (h ▸ hl)
      · simp only [if_neg hc] at hl
        rcases List.mem_cons.mp hl with hl | hl
        · subst hl
          intro hmem
          rcases List.mem_cons.mp hmem with hmem | hmem
          · exact hc hmem.symm
          · exact ih l0 (h ▸ List.mem_cons_self l0 ls) hmem
        · exact ih l (h ▸ List.mem_cons.mpr (Or.inr hl))

/-- A newline-free text splits into a single piece. -/
theorem splitNl_of_no_newline (l : List Char) (h : '\n' ∉ l) : splitNl l = [l] := by
  induction l with
  | nil => rfl
  | cons c rest ih =>
    have hc : c ≠ '\n' := fun hc => h (hc ▸ List.mem_cons_self c rest)
    have hrest : '\n' ∉ rest := fun hm => h (List.mem_cons.mpr (Or.inr hm))
    rw [splitNl, ih hrest]
    simp [hc]

/-- Splitting distributes over a newline separator when the left part is
newline-free. -/
theorem splitNl_append_nl (l t : List Char) (h : '\n' ∉ l) :
    splitNl (l ++ '\n' :: t) = l :: splitNl t := by
  induction l with
  | nil =>
    rw [List.nil_append, splitNl]
    rcases ht : splitNl t with _ | ⟨l0, ls⟩
    · exact absurd ht (splitNl_ne_nil t)
    · simp
  | cons c rest ih =>
    have hc : c ≠ '\n' := fun hc => h (hc ▸ List.mem_cons_self c rest)
    have hrest : '\n' ∉ rest := fun hm => h (List.mem_cons.mpr (Or.inr hm))
    rw [List.cons_append, splitNl, ih hrest]
    simp [hc]

/-- Splitting a join of newline-free pieces restores the pieces. -/
theorem splitNl_joinNl (ls : List (List Char)) (hne : ls ≠ [])
    (h : ∀ l ∈ ls, '\n' ∉ l) : splitNl (joinNl ls) = ls := by
  induction ls with
  | nil => exact absurd rfl hne
  | cons l ls' ih =>
    cases ls' with
    | nil =>
      rw [joinNl]
      exact splitNl_of_no_newline l (h l (List.mem_cons_self l []))
    | cons l' ls'' =>
      have hne' : l' :: ls'' ≠ [] := by simp
      have h' : ∀ x ∈ l' :: ls'', '\n' ∉ x := fun x hx => h x (List.mem_cons.mpr (Or.inr hx))
      rw [joinNl, splitNl_append_nl l _ (h l (List.mem_cons_self _ _))]
      · rw [ih hne' h']
      · exact fun hx => List.noConfusion hx

/-!  ## Last-import-index characterization  -/

/-- Recursive description of the index of the last import line. -/
def lastImportIdxRec : List (List Char) → Option Nat
  | [] => none
  | l :: ls =>
    match lastImportIdxRec ls with
    | some k => some (k + 1)
    | none => if isImportLine l then some 0 else none

/-- The fold of `_find_last_import_index` from an arbitrary state computes
the recursive description shifted by the running index. -/
theorem findLastImportIndex_fold :
    ∀ (lines : List (List Char)) (i best : Int),
      (lines.foldl
        (fun (st : Int × Int) line => (st.1 + 1, if isImportLine line then st.1 else st.2))
        (i, best)).2 =
      match lastImportIdxRec lines with
      | some k => i + k
      | none => best := by
  intro lines
  induction lines with
  | nil => intro i best; rfl
  | cons l ls ih =>
    intro i best
    rw [List.foldl_cons, ih]
    rcases h : lastImportIdxRec ls with _ | k
    · by_cases himp : isImportLine l = true
      · simp [lastImportIdxRec, h, himp]
      · simp only [Bool.not_eq_true] at himp
        simp [lastImportIdxRec, h, himp]
    · simp only [lastImportIdxRec, h]
      by_cases himp : isImportLine l = true
      · simp [himp]; ring
      · simp only [Bool.not_eq_true] at himp
        simp [himp]; ring

/-- `_find_last_import_index` through the recursive description. -/
theorem findLastImportIndex_eq (lines : List (List Char)) :
    findLastImportIndex lines =
      match lastImportIdxRec lines with
      | some k => (k : Int)
      | none => -1 := by
  rw [findLastImportIndex, findLastImportIndex_fold]
  rcases lastImportIdxRec lines with _ | k <;> simp

/-- When no line passes the import test, the recursive description is
`none`. -/
theorem lastImportIdxRec_none (lines : List (List Char))
    (h : ∀ l ∈ lines, isImportLine l = false) : lastImportIdxRec lines = none := by
  induction lines with
  | nil => rfl
  | cons l ls ih =>
    rw [lastImportIdxRec, ih (fun x hx => h x (List.mem_cons.mpr (Or.inr hx)))]
    simp [h l (List.mem_cons_self l ls)]

/-- When line `k` passes the import test and no later line does, the
recursive description is `some k`. -/
theorem lastImportIdxRec_some :
    ∀ (lines : List (List Char)) (k : Nat), k < lines.length →
      isImportLine (lines.getD k []) = true →
      (∀ j, k < j → j < lines.length → isImportLine (lines.getD j []) = false) →
      lastImportIdxRec lines = some k := by
  intro lines
  induction lines with
  | nil => intro k hk _ _; simp at hk
  | cons l ls ih =>
    intro k hk himp hafter
    cases k with
    | zero =>
      have hnone : lastImportIdxRec ls = none := by
        apply lastImportIdxRec_none
        intro x hx
        rcases List.getElem_of_mem hx with ⟨j, hj, hxj⟩
        have := hafter (j + 1) (Nat.succ_pos j) (by simp; omega)
        rw [List.getD_cons_succ] at this
        rwa [List.getD_eq_getElem ls [] hj, hxj] at this
      rw [lastImportIdxRec, hnone]
      rw [List.getD_cons_zero] at himp
      simp [himp]
    | succ k' =>
      have hk' : k' < ls.length := by simpa using hk
      have himp' : isImportLine (ls.getD k' []) = true := by
        rwa [List.getD_cons_succ] at himp
      have hafter' : ∀ j, k' < j → j < ls.length → isImportLine (ls.getD j []) = false := by
        intro j hj hjlen
        have := hafter (j + 1) (by omega) (by simp; omega)
        rwa [List.getD_cons_succ] at this
      rw [lastImportIdxRec, ih k' hk' himp' hafter']

/-!  ## Insertion position lemmas  -/

/-- Length of a Python list insert. -/
theorem pyInsert_length (l : List (List Char)) (i : Nat) (x : List Char) :
    (pyInsert l i x).length = l.length + 1 := by
  rw [pyInsert]
  simp
  omega

/-- Count of the inserted element grows by exactly one. -/
theorem pyInsert_count (l : List (List Char)) (i : Nat) (x : List Char) :
    (pyInsert l i x).count x = l.count x + 1 := by
  rw [pyInsert]
  rw [List.count_append, List.count_cons_self]
  conv_rhs => rw [← List.take_append_drop i l, List.count_append]
  omega

/-- Newline-freedom of every element survives a Python list insert. -/
theorem pyInsert_no_newline (l : List (List Char)) (i : Nat) (x : List Char)
    (hl : ∀ y ∈ l, '\n' ∉ y) (hx : '\n' ∉ x) :
    ∀ y ∈ pyInsert l i x, '\n' ∉ y := by
  intro y hy
  rw [pyInsert] at hy
  rcases List.mem_append.mp hy with hy | hy
  · exact hl y (List.mem_of_mem_take hy)
  · rcases List.mem_cons.mp hy with hy | hy
    · exact hy ▸ hx
    · exact hl y (List.mem_of_mem_drop hy)

/-- The inserted element lands at position `i` when `i ≤ length`. -/
theorem pyInsert_getD_self (l : List (List Char)) (i : Nat) (x : List Char)
    (hi : i ≤ l.length) : (pyInsert l i x).getD i [] = x := by
  rw [pyInsert, List.getD_eq_getElem?_getD]
  rw [List.getElem?_append_right (by simp [Nat.min_eq_left hi])]
  simp [List.length_take, Nat.min_eq_left hi]

/-- Positions before the insertion point are unchanged. -/
theorem pyInsert_getD_lt (l : List (List Char)) (i : Nat) (x : List Char)
    (j : Nat) (hj : j < i) (hi : i ≤ l.length) :
    (pyInsert l i x).getD j [] = l.getD j [] := by
  rw [pyInsert, List.getD_eq_getElem?_getD, List.getD_eq_getElem?_getD]
  rw [List.getElem?_append_left (by simpa [Nat.min_eq_left hi] using hj)]
  rw [List.getElem?_take_of_lt hj]

/-- Positions at or after the insertion point shift down by one. -/
theorem pyInsert_getD_ge (l : List (List Char)) (i : Nat) (x : List Char)
    (j : Nat) (hj : i ≤ j) (hi : i ≤ l.length) :
    (pyInsert l i x).getD (j + 1) [] = l.getD j [] := by
  rw [pyInsert, List.getD_eq_getElem?_getD, List.getD_eq_getElem?_getD]
  have hlen : (l.take i).length = i := by simp [Nat.min_eq_left hi]
  rw [List.getElem?_append_right (by rw [hlen]; omega)]
  rw [hlen]
  have h2 : j + 1 - i = (j - i) + 1 := by omega
  rw [h2]
  simp only [List.getElem?_cons_succ]
  rw [List.getElem?_drop]
  have h3 : i + (j - i) = j := by omega
  rw [h3]

/-!  ## The selected import strings  -/

/-- The server path rules only ever select one of two import strings. -/
theorem getLoggerImportForPath_cases (fp : List Char) :
    getLoggerImportForPath fp = "import logger from './logger';".data
    ∨ getLoggerImportForPath fp = "import logger from '../lib/logger';".data := by
  rw [getLoggerImportForPath]
  rcases h : IMPORT_PATH_RULES.find? (fun pr => containsSub fp pr.1) with _ | pr
  · rw [h]; right; rfl
  · rw [h]
    have hm := List.mem_of_find?_eq_some h
    simp only [IMPORT_PATH_RULES, List.mem_cons, List.not_mem_nil, or_false] at hm
    rcases hm with h' | h' | h' | h' | h' | h' | h' <;> subst h'
    · left; rfl
    all_goals right; rfl

/-- The client path chain only ever selects one of three import strings. -/
theorem clientLoggerImportForPath_cases (fp : List Char) :
    clientLoggerImportForPath fp = "import logger from '../lib/logger';".data
    ∨ clientLoggerImportForPath fp = "import logger from './logger';".data
    ∨ clientLoggerImportForPath fp = "import logger from './lib/logger';".data := by
  rw [clientLoggerImportForPath]
  split
  · left; rfl
  split
  · left; rfl
  split
  · right; left; rfl
  split
  · right; right; rfl
  · right; right; rfl

/-- No selected server import string contains a newline. -/
theorem getLoggerImportForPath_no_newline (fp : List Char) :
    '\n' ∉ getLoggerImportForPath fp := by
  rcases getLoggerImportForPath_cases fp with h | h <;> rw [h] <;> decide

/-- No selected server import string contains the letter `c` (the first
character of every replacement pattern). -/
theorem getLoggerImportForPath_no_c (fp : List Char) :
    ∀ x ∈ getLoggerImportForPath fp, x ≠ 'c' := by
  rcases getLoggerImportForPath_cases fp with h | h <;> rw [h] <;> decide

/-- No selected client import string contains a newline. -/
theorem clientLoggerImportForPath_no_newline (fp : List Char) :
    '\n' ∉ clientLoggerImportForPath fp := by
  rcases clientLoggerImportForPath_cases fp with h | h | h <;> rw [h] <;> decide

/-- No selected client import string contains the letter `c`. -/
theorem clientLoggerImportForPath_no_c (fp : List Char) :
    ∀ x ∈ clientLoggerImportForPath fp, x ≠ 'c' := by
  rcases clientLoggerImportForPath_cases fp with h | h | h <;> rw [h] <;> decide

/-!  ## Unfolding the rewriters on the insertion path  -/

/-- On a changed text with no marker, the server rewriter returns the
joined insertion of the selected import. -/
theorem migrate_file_insert_eq (fp c : List Char)
    (hch : (applyConsoleReplacements c == c) = false)
    (hmk : containsSub c loggerImportMarker = false) :
    migrate_file fp c =
      ⟨joinNl (insertImport (splitNl (applyConsoleReplacements c))
          (getLoggerImportForPath fp)
          (findLastImportIndex (splitNl (applyConsoleReplacements c)))), true⟩ := by
  rw [migrate_file]
  simp only [hch, hmk, Bool.false_eq_true, if_false, Bool.not_false, if_true]

/-- On a changed text with no marker, the client rewriter returns the
joined insertion of its selected import (after the last import line, or
at position 0). -/
theorem client_migrate_file_insert_eq (fp c : List Char)
    (hch : (applyConsoleReplacements c == c) = false)
    (hmk : containsSub c loggerImportMarker = false) :
    client_migrate_file fp c =
      ⟨joinNl
        (if 0 ≤ findLastImportIndex (splitNl (applyConsoleReplacements c)) then
          pyInsert (splitNl (applyConsoleReplacements c))
            ((findLastImportIndex (splitNl (applyConsoleReplacements c))).toNat + 1)
            (clientLoggerImportForPath fp)
        else
          pyInsert (splitNl (applyConsoleReplacements c)) 0
            (clientLoggerImportForPath fp)), true⟩ := by
  rw [client_migrate_file, ← applyConsoleReplacements_eq]
  simp only [hch, hmk, Bool.false_eq_true, if_false, Bool.or_self, Bool.not_false, if_true]

/-- `_insert_import` is a Python list insert at some position. -/
theorem insertImport_is_pyInsert (lines : List (List Char)) (imp : List Char)
    (idx : Int) : ∃ j, insertImport lines imp idx = pyInsert lines j imp := by
  rw [insertImport]
  split
  · exact ⟨_, rfl⟩
  split
  · exact ⟨_, rfl⟩
  · exact ⟨_, rfl⟩

/-!  ## Claim C3: exactly one import line inserted, never duplicated  -/

/-- C3: when a rewrite occurs, the server rewriter inserts exactly
one import line if the marker substring is absent from the original text
(the line count grows by one and the count of the selected import line
grows by exactly one - never duplicated), and inserts none if the
marker is present; likewise for the client rewriter. -/
theorem one_import_line_inserted (fp c : List Char)
    (hch : applyConsoleReplacements c ≠ c) :
    (containsSub c loggerImportMarker = false →
      (splitNl (migrate_file fp c).newContent).length
          = (splitNl (applyConsoleReplacements c)).length + 1
      ∧ (splitNl (migrate_file fp c).newContent).count (getLoggerImportForPath fp)
          = (splitNl (applyConsoleReplacements c)).count (getLoggerImportForPath fp) + 1
      ∧ (splitNl (client_migrate_file fp c).newContent).length
          = (splitNl (applyConsoleReplacements c)).length + 1
      ∧ (splitNl (client_migrate_file fp c).newContent).count (clientLoggerImportForPath fp)
          = (splitNl (applyConsoleReplacements c)).count (clientLoggerImportForPath fp) + 1)
    ∧ (containsSub c loggerImportMarker = true →
      (migrate_file fp c).newContent = applyConsoleReplacements c
      ∧ (client_migrate_file fp c).newContent = applyConsoleReplacements c) := by
  have hbe : (applyConsoleReplacements c == c) = false := by
    simpa using hch
  constructor
  · intro hmk
    have hL := splitNl_no_newline (applyConsoleReplacements c)
    refine ⟨?_, ?_, ?_, ?_⟩
    · rw [migrate_file_insert_eq fp c hbe hmk]
      rcases insertImport_is_pyInsert (splitNl (applyConsoleReplacements c))
        (getLoggerImportForPath fp)
        (findLastImportIndex (splitNl (applyConsoleReplacements c))) with ⟨j, hj⟩
      rw [hj]
      rw [splitNl_joinNl _
        (by rw [pyInsert]; exact List.append_ne_nil_of_right_ne_nil _ (by simp))
        (pyInsert_no_newline _ _ _ hL (getLoggerImportForPath_no_newline fp))]
      exact pyInsert_length _ _ _
    · rw [migrate_file_insert_eq fp c hbe hmk]
      rcases insertImport_is_pyInsert (splitNl (applyConsoleReplacements c))
        (getLoggerImportForPath fp)
        (findLastImportIndex (splitNl (applyConsoleReplacements c))) with ⟨j, hj⟩
      rw [hj]
      rw [splitNl_joinNl _
        (by rw [pyInsert]; exact List.append_ne_nil_of_right_ne_nil _ (by simp))
        (pyInsert_no_newline _ _ _ hL (getLoggerImportForPath_no_newline fp))]
      exact pyInsert_count _ _ _
    · rw [client_migrate_file_insert_eq fp c hbe hmk]
      split <;>
      · rw [splitNl_joinNl _
          (by rw [pyInsert]; exact List.append_ne_nil_of_right_ne_nil _ (by simp))
          (pyInsert_no_newline _ _ _ hL (clientLoggerImportForPath_no_newline fp))]
        exact pyInsert_length _ _ _
    · rw [client_migrate_file_insert_eq fp c hbe hmk]
      split <;>
      · rw [splitNl_joinNl _
          (by rw [pyInsert]; exact List.append_ne_nil_of_right_ne_nil _ (by simp))
          (pyInsert_no_newline _ _ _ hL (clientLoggerImportForPath_no_newline fp))]
        exact pyInsert_count _ _ _
  · intro hmk
    exact marker_substring_suppresses_import fp c hmk

/-- Witness for C3 at a concrete input. -/
theorem one_import_line_inserted_witness :
    (splitNl (migrate_file "a/utils/b.ts".data "console.log(1);".data).newContent).count
        (getLoggerImportForPath "a/utils/b.ts".data)
      = (splitNl (applyConsoleReplacements "console.log(1);".data)).count
          (getLoggerImportForPath "a/utils/b.ts".data) + 1 := by
  exact ((one_import_line_inserted "a/utils/b.ts".data "console.log(1);".data
    (by decide)).1 (by decide)).2.1

/-!  ## Claim C5: insertion position after the last import line  -/

/-- C5: when the text being rewritten has its last non-type-only import
line at index `k` (0-indexed) and the server rewriter inserts the new
one, the import appears on line `k + 1`, every line up to `k` is
unchanged, every line after `k` shifts down by exactly one, and the line
count grows by one - no other line is altered or reordered. -/
theorem import_inserted_after_last_import (fp c : List Char) (k : Nat)
    (hch : applyConsoleReplacements c ≠ c)
    (hmk : containsSub c loggerImportMarker = false)
    (hk : k < (splitNl (applyConsoleReplacements c)).length)
    (himp : isImportLine ((splitNl (applyConsoleReplacements c)).getD k []) = true)
    (hafter : ∀ j, k < j → j < (splitNl (applyConsoleReplacements c)).length →
        isImportLine ((splitNl (applyConsoleReplacements c)).getD j []) = false) :
    (splitNl (migrate_file fp c).newContent).getD (k + 1) [] = getLoggerImportForPath fp
    ∧ (∀ i, i ≤ k → (splitNl (migrate_file fp c).newContent).getD i []
        = (splitNl (applyConsoleReplacements c)).getD i [])
    ∧ (∀ i, k < i → i < (splitNl (applyConsoleReplacements c)).length →
        (splitNl (migrate_file fp c).newContent).getD (i + 1) []
          = (splitNl (applyConsoleReplacements c)).getD i [])
    ∧ (splitNl (migrate_file fp c).newContent).length
        = (splitNl (applyConsoleReplacements c)).length + 1 := by
  have hbe : (applyConsoleReplacements c == c) = false := by simpa using hch
  rw [migrate_file_insert_eq fp c hbe hmk]
  have hidx : findLastImportIndex (splitNl (applyConsoleReplacements c)) = (k : Int) := by
    rw [findLastImportIndex_eq,
      lastImportIdxRec_some (splitNl (applyConsoleReplacements c)) k hk himp hafter]
  have hins : insertImport (splitNl (applyConsoleReplacements c))
      (getLoggerImportForPath fp)
      (findLastImportIndex (splitNl (applyConsoleReplacements c))) =
      pyInsert (splitNl (applyConsoleReplacements c)) (k + 1) (getLoggerImportForPath fp) := by
    rw [hidx, insertImport, if_pos (by positivity)]
    simp
  rw [hins]
  rw [splitNl_joinNl _
    (by rw [pyInsert]; exact List.append_ne_nil_of_right_ne_nil _ (by simp))
    (pyInsert_no_newline _ _ _ (splitNl_no_newline (applyConsoleReplacements c))
      (getLoggerImportForPath_no_newline fp))]
  refine ⟨pyInsert_getD_self _ _ _ (by omega), ?_, ?_, pyInsert_length _ _ _⟩
  · intro i hi
    exact pyInsert_getD_lt _ _ _ i (by omega) (by omega)
  · intro i hik hil
    exact pyInsert_getD_ge _ _ _ i (by omega) (by omega)

/-- Witness for C5 at a concrete input with the last import on line 0. -/
theorem import_inserted_after_last_import_witness :
    (splitNl (migrate_file "x.ts".data "import a;\nconsole.log(1);".data).newContent).getD 1 []
      = getLoggerImportForPath "x.ts".data := by
  exact (import_inserted_after_last_import "x.ts".data "import a;\nconsole.log(1);".data 0
    (by decide) (by decide) (by decide) (by decide)
    (by
      intro j hj hl
      have h2 : (splitNl (applyConsoleReplacements "import a;\nconsole.log(1);".data)).length = 2 := by
        decide
      rw [h2] at hl
      have hj1 : j = 1 := by omega
      subst hj1
      decide)).1

/-!  ## Claim C6: shebang handling  -/

/-- Amended C6 (server rewriter): on a text with no import lines whose
first line starts with `#!`, the server rewriter inserts the new import
on line 1, or on line 2 when line 1 of the original is blank. -/
theorem shebang_insert_line (fp c : List Char)
    (hch : applyConsoleReplacements c ≠ c)
    (hmk : containsSub c loggerImportMarker = false)
    (hnoimp : ∀ l ∈ splitNl (applyConsoleReplacements c), isImportLine l = false)
    (hsb : ("#!".data).isPrefixOf ((splitNl (applyConsoleReplacements c)).headD []) = true) :
    ((1 < (splitNl (applyConsoleReplacements c)).length ∧
        pyStrip ((splitNl (applyConsoleReplacements c)).getD 1 []) = []) →
      (splitNl (migrate_file fp c).newContent).getD 2 [] = getLoggerImportForPath fp)
    ∧ (¬(1 < (splitNl (applyConsoleReplacements c)).length ∧
        pyStrip ((splitNl (applyConsoleReplacements c)).getD 1 []) = []) →
      (splitNl (migrate_file fp c).newContent).getD 1 [] = getLoggerImportForPath fp) := by
  have hbe : (applyConsoleReplacements c == c) = false := by simpa using hch
  rw [migrate_file_insert_eq fp c hbe hmk]
  have hidx : findLastImportIndex (splitNl (applyConsoleReplacements c)) = -1 := by
    rw [findLastImportIndex_eq, lastImportIdxRec_none _ hnoimp]
  have hlen1 : 1 ≤ (splitNl (applyConsoleReplacements c)).length :=
    List.length_pos.mpr (splitNl_ne_nil _)
  constructor
  · rintro ⟨hlen, hblank⟩
    have hcond : (decide (1 < (splitNl (applyConsoleReplacements c)).length)
        && (pyStrip ((splitNl (applyConsoleReplacements c)).getD 1 []) == [])) = true := by
      have hb' : pyStrip ((splitNl (applyConsoleReplacements c))[1]) = [] := by
        rwa [List.getD_eq_getElem _ _ hlen] at hblank
      simp [hlen, hb']
    have hins : insertImport (splitNl (applyConsoleReplacements c))
        (getLoggerImportForPath fp) (findLastImportIndex (splitNl (applyConsoleReplacements c)))
        = pyInsert (splitNl (applyConsoleReplacements c)) 2 (getLoggerImportForPath fp) := by
      rw [hidx, insertImport, if_neg (by omega), if_pos hsb, hcond]
      simp
    rw [hins]
    rw [splitNl_joinNl _
      (by rw [pyInsert]; exact List.append_ne_nil_of_right_ne_nil _ (by simp))
      (pyInsert_no_newline _ _ _ (splitNl_no_newline (applyConsoleReplacements c))
        (getLoggerImportForPath_no_newline fp))]
    exact pyInsert_getD_self _ _ _ (by omega)
  · intro hnot
    have hcond : (decide (1 < (splitNl (applyConsoleReplacements c)).length)
        && (pyStrip ((splitNl (applyConsoleReplacements c)).getD 1 []) == [])) = false := by
      by_cases hlen : 1 < (splitNl (applyConsoleReplacements c)).length
      · have hblank : pyStrip ((splitNl (applyConsoleReplacements c)).getD 1 []) ≠ [] :=
          fun hb => hnot ⟨hlen, hb⟩
        have hb' : pyStrip ((splitNl (applyConsoleReplacements c))[1]) ≠ [] := by
          rwa [List.getD_eq_getElem _ _ hlen] at hblank
        simp [hlen, hb']
      · simp [hlen]
    have hins : insertImport (splitNl (applyConsoleReplacements c))
        (getLoggerImportForPath fp) (findLastImportIndex (splitNl (applyConsoleReplacements c)))
        = pyInsert (splitNl (applyConsoleReplacements c)) 1 (getLoggerImportForPath fp) := by
      rw [hidx, insertImport, if_neg (by omega), if_pos hsb, hcond]
      simp
    rw [hins]
    rw [splitNl_joinNl _
      (by rw [pyInsert]; exact List.append_ne_nil_of_right_ne_nil _ (by simp))
      (pyInsert_no_newline _ _ _ (splitNl_no_newline (applyConsoleReplacements c))
        (getLoggerImportForPath_no_newline fp))]
    exact pyInsert_getD_self _ _ _ (by omega)

/-- Witness for the amended C6: a shebang file with no blank second line -
the server rewriter places the import on line 1, directly after the
shebang. -/
theorem shebang_insert_line_witness :
    (splitNl (migrate_file "x.ts".data
        "#!/usr/bin/env node\nconsole.log(1);".data).newContent).getD 1 []
      = getLoggerImportForPath "x.ts".data := by
  refine (shebang_insert_line "x.ts".data "#!/usr/bin/env node\nconsole.log(1);".data
    (by decide) (by decide) ?_ (by decide)).2 ?_
  · intro l hl
    have h2 : splitNl (applyConsoleReplacements "#!/usr/bin/env node\nconsole.log(1);".data)
        = ["#!/usr/bin/env node".data, "logger.info(1);".data] := by decide
    rw [h2] at hl
    rcases List.mem_cons.mp hl with h | h
    · subst h; decide
    · rcases List.mem_cons.mp h with h | h
      · subst h; decide
      · simp at h
  · intro hcon
    have h2 : pyStrip ((splitNl (applyConsoleReplacements
        "#!/usr/bin/env node\nconsole.log(1);".data)).getD 1 []) ≠ [] := by decide
    exact h2 hcon.2

/-- C6 counterexample (client rewriter): the client variant has no
shebang branch; on a shebang-led text with no import lines it inserts
the import as the new first line (line 0), pushing the shebang to
line 1, contradicting the claimed line-1 placement. -/
theorem client_shebang_counterexample :
    (splitNl (client_migrate_file "App.tsx".data
        "#!/usr/bin/env node\nconsole.log(1);".data).newContent).getD 0 []
      = "import logger from './lib/logger';".data
    ∧ (splitNl (client_migrate_file "App.tsx".data
        "#!/usr/bin/env node\nconsole.log(1);".data).newContent).getD 1 []
      = "#!/usr/bin/env node".data
    ∧ (splitNl (client_migrate_file "App.tsx".data
        "#!/usr/bin/env node\nconsole.log(1);".data).newContent).getD 1 []
      ≠ clientLoggerImportForPath "App.tsx".data := by
  refine ⟨by decide, by decide, by decide⟩

/-!  ## Fuel irrelevance and scan decomposition  -/

/-- The scan on the empty text is empty for any fuel. -/
theorem subF_nil (hd : Char) (tl repl : List Char) (f : Nat) (pw : Bool) :
    subF hd tl repl f pw [] = [] := by cases f <;> rfl

/-- One-step unfolding of the scan on a cons cell with positive fuel. -/
theorem subF_cons (hd : Char) (tl repl : List Char) (f : Nat) (pw : Bool)
    (c : Char) (rest : List Char) :
    subF hd tl repl (f + 1) pw (c :: rest) =
      if matchHere hd tl pw (c :: rest) then
        repl ++ subF hd tl repl f (isWordChar (tl.getLastD hd)) (rest.drop tl.length)
      else
        c :: subF hd tl repl f (isWordChar c) rest := rfl

/-- Any two sufficient fuels compute the same scan. -/
theorem subF_fuel (hd : Char) (tl repl : List Char) :
    ∀ (f₁ : Nat) (f₂ : Nat) (pw : Bool) (s : List Char),
      s.length ≤ f₁ → s.length ≤ f₂ →
      subF hd tl repl f₁ pw s = subF hd tl repl f₂ pw s := by
  intro f₁
  induction f₁ with
  | zero =>
    intro f₂ pw s h1 _
    have : s = [] := List.length_eq_zero.mp (Nat.le_zero.mp h1)
    subst this
    rw [subF_nil, subF_nil]
  | succ f ih =>
    intro f₂ pw s h1 h2
    cases s with
    | nil => rw [subF_nil, subF_nil]
    | cons c rest =>
      cases f₂ with
      | zero => simp at h2
      | succ g =>
        rw [subF_cons, subF_cons]
        by_cases hm : matchHere hd tl pw (c :: rest) = true
        · rw [if_pos hm, if_pos hm]
          have hd1 : (rest.drop tl.length).length ≤ f := by
            have := List.length_drop tl.length rest
            simp at h1
            omega
          have hd2 : (rest.drop tl.length).length ≤ g := by
            have := List.length_drop tl.length rest
            simp at h2
            omega
          rw [ih g _ _ hd1 hd2]
        · rw [if_neg hm, if_neg hm]
          have hr1 : rest.length ≤ f := by simp at h1; omega
          have hr2 : rest.length ≤ g := by simp at h2; omega
          rw [ih g _ _ hr1 hr2]

/-- The word-status of the position following a scanned segment. -/
def pwAfter (pw : Bool) : List Char → Bool
  | [] => pw
  | c :: rest => pwAfter (isWordChar c) rest

/-- `pwAfter` steps through a cons cell. -/
theorem pwAfter_cons (pw : Bool) (x : Char) (a : List Char) :
    pwAfter pw (x :: a) = pwAfter (isWordChar x) a := rfl

/-- On a nonempty segment, `pwAfter` is the word status of the last
character. -/
theorem pwAfter_ne_nil (pw : Bool) (a : List Char) (h : a ≠ []) :
    pwAfter pw a = wOpt a.getLast? := by
  induction a generalizing pw with
  | nil => exact absurd rfl h
  | cons x a' ih =>
    cases a' with
    | nil => simp [pwAfter, wOpt]
    | cons y a'' =>
      rw [pwAfter_cons, ih (isWordChar x) (by simp), List.getLast?_cons_cons]

/-- Head of an append with a nonempty left part. -/
theorem head?_append_left (a b : List Char) (h : a ≠ []) :
    (a ++ b).head? = a.head? := by
  cases a with
  | nil => exact absurd rfl h
  | cons x a' => rfl

/-- The scan copies a segment containing no occurrence of the pattern's
first character and continues after it. -/
theorem subF_seg (hd : Char) (tl repl : List Char) :
    ∀ (a t : List Char) (f : Nat) (pw : Bool),
      (∀ x ∈ a, x ≠ hd) → (a ++ t).length ≤ f →
      subF hd tl repl f pw (a ++ t)
        = a ++ subF hd tl repl t.length (pwAfter pw a) t := by
  intro a
  induction a with
  | nil =>
    intro t f pw _ hf
    rw [List.nil_append, List.nil_append, pwAfter]
    exact subF_fuel hd tl repl f t.length pw t (by simpa using hf) le_rfl
  | cons x a' ih =>
    intro t f pw hx hf
    cases f with
    | zero => simp at hf
    | succ g =>
      rw [List.cons_append, subF_cons]
      have hne : (hd == x) = false :=
        beq_eq_false_iff_ne.mpr (fun h => (hx x (List.mem_cons_self x a')) h.symm)
      have hm : matchHere hd tl pw (x :: (a' ++ t)) = false := by
        rw [matchHere, isPrefixOf_cons_cons, hne]
        simp
      rw [if_neg (by simp [hm]), ih t g (isWordChar x)
        (fun y hy => hx y (List.mem_cons.mpr (Or.inr hy)))
        (by simp only [List.length_cons, List.length_append] at hf ⊢; omega),
        pwAfter_cons]
      simp

/-- The scan through a segment free of the pattern's first character
finds an occurrence if and only if the continuation does. -/
theorem occF_seg (hd : Char) (tl : List Char) :
    ∀ (a t : List Char) (pw : Bool),
      (∀ x ∈ a, x ≠ hd) →
      occF hd tl pw (a ++ t) = occF hd tl (pwAfter pw a) t := by
  intro a
  induction a with
  | nil => intro t pw _; rw [List.nil_append]; rfl
  | cons x a' ih =>
    intro t pw hx
    rw [List.cons_append, occF]
    have hne : (hd == x) = false :=
      beq_eq_false_iff_ne.mpr (fun h => (hx x (List.mem_cons_self x a')) h.symm)
    have hm : matchHere hd tl pw (x :: (a' ++ t)) = false := by
      rw [matchHere, isPrefixOf_cons_cons, hne]
      simp
    rw [hm, Bool.false_or, ih t (isWordChar x)
      (fun y hy => hx y (List.mem_cons.mpr (Or.inr hy))), pwAfter_cons]

/-- The scan replaces a pattern occurrence sitting at the front with
valid boundaries on both sides, and continues after it. -/
theorem subF_match_front (hd : Char) (tl repl : List Char) (t : List Char)
    (f : Nat) (pw : Bool)
    (hl : (pw != isWordChar hd) = true)
    (hr : (isWordChar (tl.getLastD hd) != wOpt t.head?) = true)
    (hf : ((hd :: tl) ++ t).length ≤ f) :
    subF hd tl repl f pw ((hd :: tl) ++ t)
      = repl ++ subF hd tl repl t.length (isWordChar (tl.getLastD hd)) t := by
  cases f with
  | zero => simp at hf
  | succ g =>
    have hdrop : ((hd :: tl) ++ t).drop (tl.length + 1) = t := by
      have h0 : ((hd :: tl) ++ t).drop (hd :: tl).length = t := List.drop_left _ _
      rwa [List.length_cons] at h0
    have hm : matchHere hd tl pw ((hd :: tl) ++ t) = true := by
      rw [matchHere, hdrop, isPrefixOf_append_self, hl, hr]
      rfl
    rw [List.cons_append, subF_cons]
    rw [List.cons_append] at hm
    rw [if_pos hm]
    congr 1
    have hdrop2 : (tl ++ t).drop tl.length = t := List.drop_left _ _
    rw [hdrop2]
    exact subF_fuel hd tl repl g t.length _ t
      (by simp only [List.length_cons, List.length_append] at hf; omega) le_rfl

/-!  ## Claim C4: word-boundary-safe substitution of all occurrences  -/

/-- `interleave mid [s0, s1, ..., sn] = s0 ++ mid ++ s1 ++ mid ++ ... ++ sn`:
a text built from `n` copies of `mid` separated by the given segments. -/
def interleave (mid : List Char) : List (List Char) → List Char
  | [] => []
  | [s] => s
  | s :: rest => s ++ mid ++ interleave mid rest

/-- A separator segment that isolates adjacent pattern occurrences: it is
nonempty, shares no character with the pattern, and starts and ends with
non-word characters (so the occurrences around it are word-bounded). -/
def sepOk (p sep : List Char) : Prop :=
  sep ≠ [] ∧ (∀ x ∈ sep, x ∉ p) ∧ wOpt sep.head? = false ∧ wOpt sep.getLast? = false

/-- Unfolding equations for `interleave`. -/
theorem interleave_single (mid s : List Char) : interleave mid [s] = s := rfl

/-- Unfolding of `interleave` on two or more segments. -/
theorem interleave_cons2 (mid s s' : List Char) (rest : List (List Char)) :
    interleave mid (s :: s' :: rest) = s ++ mid ++ interleave mid (s' :: rest) := rfl

/-- The scan rewrites a text of `n` isolated pattern occurrences into the
`n` replacements with all separators untouched. -/
theorem subF_interleave (hd : Char) (tl repl : List Char)
    (hw : isWordChar hd = true) (hlast : isWordChar (tl.getLastD hd) = true) :
    ∀ (seps : List (List Char)) (f : Nat) (pw : Bool),
      (∀ sep ∈ seps, sepOk (hd :: tl) sep) →
      (interleave (hd :: tl) seps).length ≤ f →
      subF hd tl repl f pw (interleave (hd :: tl) seps) = interleave repl seps := by
  intro seps
  induction seps with
  | nil => intro f pw _ _; rw [interleave, subF_nil, interleave]
  | cons s rest ih =>
    intro f pw hsep hf
    have hs : sepOk (hd :: tl) s := hsep s (List.mem_cons_self s rest)
    have hsne : s ≠ [] := hs.1
    have hshd : ∀ x ∈ s, x ≠ hd :=
      fun x hx heq => hs.2.1 x hx (heq ▸ List.mem_cons_self hd tl)
    have hpw : pwAfter pw s = false := by
      rw [pwAfter_ne_nil pw s hsne]
      exact hs.2.2.2
    cases rest with
    | nil =>
      rw [interleave_single] at hf ⊢
      rw [interleave_single]
      have h0 := subF_seg hd tl repl s [] f pw hshd (by simpa using hf)
      rw [List.append_nil] at h0
      rw [h0, subF_nil, List.append_nil]
    | cons s' rest' =>
      have hs' : sepOk (hd :: tl) s' :=
        hsep s' (List.mem_cons.mpr (Or.inr (List.mem_cons_self s' rest')))
      rw [interleave_cons2, List.append_assoc]
      rw [subF_seg hd tl repl s ((hd :: tl) ++ interleave (hd :: tl) (s' :: rest')) f pw hshd
        (by rw [← List.append_assoc, ← interleave_cons2]; exact hf)]
      rw [hpw]
      have hhead : (interleave (hd :: tl) (s' :: rest')).head? = s'.head? := by
        cases rest' with
        | nil => rw [interleave_single]
        | cons s'' rest'' =>
          rw [interleave_cons2, List.append_assoc]
          exact head?_append_left s' _ hs'.1
      rw [subF_match_front hd tl repl _ _ false
        (by rw [hw]; rfl)
        (by rw [hlast, hhead, hs'.2.2.1]; rfl)
        le_rfl]
      rw [ih _ _ (fun x hx => hsep x (List.mem_cons.mpr (Or.inr hx))) le_rfl]
      rw [interleave_cons2, List.append_assoc]

/-- For a nonempty pattern whose replacement starts with a different
character, the substitution changes the text exactly when a word-bounded
occurrence exists. -/
theorem reSubWord_ne_iff (hd : Char) (tl : List Char) (r0 : Char) (rtl : List Char)
    (h0 : r0 ≠ hd) (s : List Char) :
    reSubWord (hd :: tl) (r0 :: rtl) s ≠ s ↔ occursPat (hd :: tl) s = true := by
  rw [reSubWord, occursPat]
  constructor
  · intro hne
    by_cases hocc : occF hd tl false s = true
    · exact hocc
    · exact absurd (subF_of_occF_false hd tl (r0 :: rtl) s.length false s
        (Bool.not_eq_true _ ▸ hocc)) hne
  · intro hocc
    exact subF_ne_of_occF_true hd tl r0 rtl h0 s.length false s le_rfl hocc

/-- Top-level wrapper of the interleave theorem. -/
theorem reSubWord_interleave (hd : Char) (tl r : List Char)
    (hw : isWordChar hd = true) (hlast : isWordChar (tl.getLastD hd) = true)
    (seps : List (List Char)) (hsep : ∀ sep ∈ seps, sepOk (hd :: tl) sep) :
    reSubWord (hd :: tl) r (interleave (hd :: tl) seps) = interleave r seps := by
  rw [reSubWord]
  exact subF_interleave hd tl r hw hlast seps _ false hsep le_rfl

/-- C4: every `ReplacementRule` of the map is a word-boundary-safe
substitution: (i) the rule changes a text exactly when a word-bounded
occurrence of its pattern exists - in particular an occurrence that is a
substring of a longer identifier (not word-bounded) is never replaced;
and (ii) on a text of `n` pattern occurrences isolated by pattern-free
non-word separators, all `n` occurrences are replaced and nothing else
changes. -/
theorem replacement_word_boundary_safe (p r : List Char)
    (hmem : (p, r) ∈ CONSOLE_TO_LOGGER_MAP) :
    (∀ s, reSubWord p r s ≠ s ↔ occursPat p s = true)
    ∧ (∀ seps : List (List Char), (∀ sep ∈ seps, sepOk p sep) →
        reSubWord p r (interleave p seps) = interleave r seps) := by
  simp only [CONSOLE_TO_LOGGER_MAP, List.mem_cons, List.not_mem_nil, or_false] at hmem
  rcases hmem with h | h | h | h | h <;>
    · injection h with hp hr
      subst hp; subst hr
      refine ⟨fun s => ?_, fun seps hsep => ?_⟩
      · exact reSubWord_ne_iff _ _ _ _ (by decide) s
      · exact reSubWord_interleave _ _ _ (by decide) (by decide) seps hsep

/-- Witness for C4: rule `console.log -> logger.info` leaves the
superstring identifier `console.logger` untouched, and rewrites both
isolated occurrences in `(console.log)(console.log);`. -/
theorem replacement_word_boundary_safe_witness :
    reSubWord "console.log".data "logger.info".data "a console.logger.log2(x);".data
        = "a console.logger.log2(x);".data
    ∧ reSubWord "console.log".data "logger.info".data
        (interleave "console.log".data ["(".data, ")(".data, ");".data])
      = interleave "logger.info".data ["(".data, ")(".data, ");".data] := by
  have h := replacement_word_boundary_safe "console.log".data "logger.info".data
    (by decide)
  constructor
  · by_contra hne
    have hocc := (h.1 "a console.logger.log2(x);".data).mp hne
    have : occursPat "console.log".data "a console.logger.log2(x);".data = false := by decide
    rw [this] at hocc
    exact Bool.false_ne_true hocc
  · refine h.2 ["(".data, ")(".data, ");".data] ?_
    intro sep hsep
    rcases List.mem_cons.mp hsep with h1 | h1
    · subst h1; refine ⟨by decide, by decide, by decide, by decide⟩
    rcases List.mem_cons.mp h1 with h2 | h2
    · subst h2; refine ⟨by decide, by decide, by decide, by decide⟩
    rcases List.mem_cons.mp h2 with h3 | h3
    · subst h3; refine ⟨by decide, by decide, by decide, by decide⟩
    · simp at h3

/-!  ## Prefix bookkeeping lemmas for the saturation proof  -/

/-- A prefix is no longer than the list. -/
theorem isPrefixOf_length_le : ∀ (X Y : List Char), X.isPrefixOf Y = true →
    X.length ≤ Y.length := by
  intro X
  induction X with
  | nil => intro Y _; simp
  | cons x xs ih =>
    intro Y h
    cases Y with
    | nil => simp [List.isPrefixOf] at h
    | cons y ys =>
      rw [isPrefixOf_cons_cons] at h
      simpa using ih ys (Bool.and_eq_true_iff.mp h).2

/-- A prefix of an append that fits in the left part is a prefix of the
left part. -/
theorem isPrefixOf_append_elim_left : ∀ (A X B : List Char),
    X.isPrefixOf (A ++ B) = true → X.length ≤ A.length → X.isPrefixOf A = true := by
  intro A
  induction A with
  | nil =>
    intro X B _ hlen
    have : X = [] := List.length_eq_zero.mp (Nat.le_zero.mp (by simpa using hlen))
    simp [this, List.isPrefixOf]
  | cons a A' ih =>
    intro X B h hlen
    cases X with
    | nil => simp [List.isPrefixOf]
    | cons x X' =>
      rw [List.cons_append, isPrefixOf_cons_cons] at h
      rw [isPrefixOf_cons_cons]
      rcases Bool.and_eq_true_iff.mp h with ⟨h1, h2⟩
      rw [h1, ih X' B h2 (by simpa using hlen)]
      rfl

/-- A prefix of the same length as the list is the list. -/
theorem isPrefixOf_eq_of_length : ∀ (X Y : List Char), X.isPrefixOf Y = true →
    X.length = Y.length → X = Y := by
  intro X
  induction X with
  | nil =>
    intro Y _ hlen
    exact (List.length_eq_zero.mp hlen.symm).symm
  | cons x xs ih =>
    intro Y h hlen
    cases Y with
    | nil => simp [List.isPrefixOf] at h
    | cons y ys =>
      rw [isPrefixOf_cons_cons] at h
      rcases Bool.and_eq_true_iff.mp h with ⟨h1, h2⟩
      rw [eq_of_beq h1, ih ys h2 (by simpa using hlen)]

/-- If `X` is a prefix of `A ++ B` and at least as long as `A`, then `A`
is a prefix of `X`. -/
theorem append_isPrefixOf_elim : ∀ (A X B : List Char),
    X.isPrefixOf (A ++ B) = true → A.length ≤ X.length → A.isPrefixOf X = true := by
  intro A
  induction A with
  | nil => intro X B _ _; simp [List.isPrefixOf]
  | cons a A' ih =>
    intro X B h hlen
    cases X with
    | nil => simp at hlen
    | cons x X' =>
      rw [List.cons_append, isPrefixOf_cons_cons] at h
      rw [isPrefixOf_cons_cons]
      rcases Bool.and_eq_true_iff.mp h with ⟨h1, h2⟩
      have : (a == x) = true := by rw [eq_of_beq h1]; exact beq_self_eq_true a
      rw [this, ih X' B h2 (by simpa using hlen)]
      rfl

/-- A list decomposes at any of its prefixes. -/
theorem eq_append_drop_of_isPrefixOf : ∀ (X Y : List Char), X.isPrefixOf Y = true →
    Y = X ++ Y.drop X.length := by
  intro X
  induction X with
  | nil => intro Y _; simp
  | cons x xs ih =>
    intro Y h
    cases Y with
    | nil => simp [List.isPrefixOf] at h
    | cons y ys =>
      rw [isPrefixOf_cons_cons] at h
      rcases Bool.and_eq_true_iff.mp h with ⟨h1, h2⟩
      rw [List.length_cons, List.cons_append, List.drop_succ_cons]
      rw [eq_of_beq h1]
      exact congrArg (y :: ·) (ih ys h2)

/-- Dropping strictly fewer elements than the length leaves something. -/
theorem drop_ne_nil_of_lt (l : List Char) (q : Nat) (h : q < l.length) :
    l.drop q ≠ [] := by
  intro hnil
  have := List.length_drop q l
  rw [hnil] at this
  simp at this
  omega

/-- The last element of a cons cell via `getLastD`. -/
theorem getLast?_cons_getLastD : ∀ (l : List Char) (a : Char),
    (a :: l).getLast? = some (l.getLastD a) := by
  intro l
  induction l with
  | nil => intro a; rfl
  | cons b l' ih =>
    intro a
    rw [List.getLast?_cons_cons, ih b, List.getLastD_cons]

/-- An occurrence-free text stays occurrence-free on any suffix reached
by the scan. -/
theorem occF_false_append (hd : Char) (tl : List Char) :
    ∀ (a t : List Char) (pw : Bool),
      occF hd tl pw (a ++ t) = false → occF hd tl (pwAfter pw a) t = false := by
  intro a
  induction a with
  | nil => intro t pw h; exact h
  | cons x a' ih =>
    intro t pw h
    rw [List.cons_append, occF] at h
    rw [pwAfter_cons]
    exact ih t (isWordChar x) (Bool.or_eq_false_iff.mp h).2

/-!  ## Saturation of the substitution  -/

/-- Side conditions under which applying the rule `(hd' :: tl') -> repl'`
cannot create or leave a word-bounded occurrence of the pattern
`hd :: tl`: all pattern/replacement edges are word characters, the
replacement avoids the target's first character, and no tail of the
target pattern aligns with the replacement in a way that could complete
an occurrence across a replacement block. -/
structure SatHyps (hd : Char) (tl : List Char) (hd' : Char) (tl' repl' : List Char) :
    Prop where
  hw : isWordChar hd = true
  hlastP : isWordChar (tl.getLastD hd) = true
  hw' : isWordChar hd' = true
  hlast' : isWordChar (tl'.getLastD hd') = true
  hrne : repl' ≠ []
  hrh : wOpt repl'.head? = true
  hrl : wOpt repl'.getLast? = true
  hhdR : ∀ x ∈ repl', x ≠ hd
  h3a : ∀ q, q < (hd :: tl).length → 1 ≤ q →
        ((hd :: tl).drop q).isPrefixOf repl' = true →
        (hd :: tl).length - q < repl'.length →
        wOpt ((repl'.drop ((hd :: tl).length - q)).head?) = true
  h3b : ∀ q, q < (hd :: tl).length → 1 ≤ q → (hd :: tl).drop q ≠ repl'
  h3c : ∀ q, q < (hd :: tl).length → 1 ≤ q →
        ¬(repl'.isPrefixOf ((hd :: tl).drop q) = true
          ∧ repl'.length < (hd :: tl).length - q)

/-- A nonempty tail of the pattern is never a prefix of the empty list. -/
theorem drop_isPrefixOf_nil_absurd (hd : Char) (tl : List Char) (q : Nat)
    (hq : q < (hd :: tl).length)
    (hpre : ((hd :: tl).drop q).isPrefixOf ([] : List Char) = true) : False := by
  rcases hX : (hd :: tl).drop q with _ | ⟨d, ds⟩
  · exact (drop_ne_nil_of_lt _ q hq) hX
  · rw [hX] at hpre
    simp [List.isPrefixOf] at hpre

/-- Core invariant of the scan output `out = subF hd' tl' repl' f pw s`:
(G3) the first character of `out` has the word status of the first
character of `s`; and (G2) whenever a tail `P.drop q` of the target
pattern `P = hd :: tl` sits at the front of `out` followed by a non-word
position, the same tail sits at the front of `s` followed by a non-word
position.  The `SatHyps` side conditions exclude every alignment of a
pattern tail with a replacement block. -/
theorem sat_scan_core (hd : Char) (tl : List Char) (hd' : Char) (tl' repl' : List Char)
    (H : SatHyps hd tl hd' tl' repl') :
    ∀ (f : Nat) (pw : Bool) (s : List Char), s.length ≤ f →
      wOpt (subF hd' tl' repl' f pw s).head? = wOpt s.head?
      ∧ (∀ q, q < (hd :: tl).length →
          ((hd :: tl).drop q).isPrefixOf (subF hd' tl' repl' f pw s) = true →
          wOpt (((subF hd' tl' repl' f pw s).drop ((hd :: tl).length - q)).head?)
            = false →
          ((hd :: tl).drop q).isPrefixOf s = true
          ∧ wOpt ((s.drop ((hd :: tl).length - q)).head?) = false) := by
  intro f
  induction f with
  | zero =>
    intro pw s hf
    have hs : s = [] := List.length_eq_zero.mp (Nat.le_zero.mp hf)
    subst hs
    rw [subF_nil]
    exact ⟨rfl, fun q hq hpre _ =>
      absurd hpre (by intro h; exact drop_isPrefixOf_nil_absurd hd tl q hq h)⟩
  | succ f ih =>
    intro pw s hf
    cases s with
    | nil =>
      rw [subF_nil]
      exact ⟨rfl, fun q hq hpre _ =>
        absurd hpre (by intro h; exact drop_isPrefixOf_nil_absurd hd tl q hq h)⟩
    | cons c rest =>
      by_cases hm : matchHere hd' tl' pw (c :: rest) = true
      · -- replacement block at the front
        rw [subF_cons, if_pos hm]
        have hpre' : (hd' :: tl').isPrefixOf (c :: rest) = true := by
          rw [matchHere] at hm
          exact (Bool.and_eq_true_iff.mp (Bool.and_eq_true_iff.mp hm).1).1
        have hc : hd' = c := by
          rw [isPrefixOf_cons_cons] at hpre'
          exact eq_of_beq (Bool.and_eq_true_iff.mp hpre').1
        constructor
        · -- G3: the block and the consumed pattern both start with a
          -- word character
          rw [head?_append_left repl' _ H.hrne, H.hrh, List.head?_cons]
          show true = wOpt (some c)
          rw [wOpt, ← hc]
          exact H.hw'.symm
        · -- G2: every alignment with the block is impossible
          intro q hq hpre hbnd
          exfalso
          rcases hX : (hd :: tl).drop q with _ | ⟨d, ds⟩
          · exact (drop_ne_nil_of_lt _ q hq) hX
          have hXlen : (hd :: tl).length - q = ds.length + 1 := by
            have h0 := List.length_drop q (hd :: tl)
            rw [hX] at h0
            simp only [List.length_cons] at h0 ⊢
            omega
          rw [hX] at hpre
          rcases Nat.lt_or_ge q 1 with hq0 | hq1
          · -- q = 0: the occurrence would start inside the block
            have hq0' : q = 0 := by omega
            subst hq0'
            rw [List.drop_zero] at hX
            rcases hrepl : repl' with _ | ⟨r0, rtl⟩
            · exact H.hrne hrepl
            rw [hrepl, List.cons_append, isPrefixOf_cons_cons] at hpre
            have hd_eq : d = r0 := eq_of_beq (Bool.and_eq_true_iff.mp hpre).1
            have hhd : hd = d := by
              have h1 := congrArg (fun l => l.head?) hX
              simpa using h1
            exact H.hhdR r0 (by rw [hrepl]; exact List.mem_cons_self r0 rtl)
              (by rw [← hd_eq, ← hhd])
          · -- q ≥ 1: compare the tail with the block
            have hXlen' : (d :: ds).length = (hd :: tl).length - q := by
              rw [hXlen]; simp
            rcases Nat.lt_trichotomy (d :: ds).length repl'.length with hlt | heq | hgt
            · -- tail ends inside the block: the next block character is a
              -- word character, contradicting the non-word boundary
              have hpre_r : (d :: ds).isPrefixOf repl' = true :=
                isPrefixOf_append_elim_left repl' (d :: ds) _ hpre (Nat.le_of_lt hlt)
              have hwd := H.h3a q hq hq1 (by rw [hX]; exact hpre_r) (by omega)
              have hdropeq : ((repl' ++ subF hd' tl' repl' f
                  (isWordChar (tl'.getLastD hd')) (rest.drop tl'.length)).drop
                    ((hd :: tl).length - q)) =
                  repl'.drop ((hd :: tl).length - q) ++ subF hd' tl' repl' f
                    (isWordChar (tl'.getLastD hd')) (rest.drop tl'.length) :=
                List.drop_append_of_le_length (by omega)
              rw [hdropeq, head?_append_left _ _
                (drop_ne_nil_of_lt repl' _ (by omega)), hwd] at hbnd
              exact Bool.noConfusion hbnd
            · -- tail equals the block: the replacement would be a proper
              -- suffix of the pattern
              have hpre_r : (d :: ds).isPrefixOf repl' = true :=
                isPrefixOf_append_elim_left repl' (d :: ds) _ hpre (Nat.le_of_eq heq)
              have heq' : (d :: ds) = repl' := isPrefixOf_eq_of_length _ _ hpre_r heq
              exact H.h3b q hq hq1 (by rw [hX, heq'])
            · -- tail strictly contains the block
              have hpre_r : repl'.isPrefixOf (d :: ds) = true :=
                append_isPrefixOf_elim repl' (d :: ds) _ hpre (Nat.le_of_lt hgt)
              exact H.h3c q hq hq1 ⟨by rw [hX]; exact hpre_r, by omega⟩
      · -- kept character at the front
        rw [subF_cons, if_neg hm]
        have IH := ih (isWordChar c) rest (by simpa using hf)
        constructor
        · rfl
        · intro q hq hpre hbnd
          rcases hX : (hd :: tl).drop q with _ | ⟨d, ds⟩
          · exact absurd hX (drop_ne_nil_of_lt _ q hq)
          have hXlen : (hd :: tl).length - q = ds.length + 1 := by
            have h0 := List.length_drop q (hd :: tl)
            rw [hX] at h0
            simp only [List.length_cons] at h0 ⊢
            omega
          rw [hX] at hpre
          rw [isPrefixOf_cons_cons] at hpre
          rcases Bool.and_eq_true_iff.mp hpre with ⟨hdc, hds⟩
          rw [hXlen, List.drop_succ_cons] at hbnd
          cases ds with
          | nil =>
            -- tail is a single character: boundary transfers by G3
            simp only [List.length_nil, List.drop_zero] at hbnd
            refine ⟨?_, ?_⟩
            · rw [isPrefixOf_cons_cons, hdc]
              simp [List.isPrefixOf]
            · rw [hXlen, List.drop_succ_cons]
              simp only [List.length_nil, List.drop_zero]
              rw [← IH.1]
              exact hbnd
          | cons d2 ds' =>
            -- recurse one character deeper
            have hq1 : q + 1 < (hd :: tl).length := by
              simp only [List.length_cons] at hXlen ⊢
              omega
            have hXq1 : (hd :: tl).drop (q + 1) = d2 :: ds' := by
              have h1 : (hd :: tl).drop (q + 1) = ((hd :: tl).drop q).drop 1 := by
                rw [List.drop_drop]
              rw [h1, hX, List.drop_one, List.tail_cons]
            have hXlen1 : (hd :: tl).length - (q + 1) = (d2 :: ds').length := by
              simp only [List.length_cons] at hXlen ⊢
              omega
            have hrec := IH.2 (q + 1) hq1
              (by rw [hXq1]; exact hds)
              (by rw [hXlen1]; exact hbnd)
            rw [hXq1] at hrec
            refine ⟨?_, ?_⟩
            · rw [isPrefixOf_cons_cons, hdc]
              rw [hrec.1]
              rfl
            · rw [hXlen, List.drop_succ_cons]
              have h2 := hrec.2
              rw [hXlen1] at h2
              exact h2

/-- Unfolding of the occurrence scan on a cons cell. -/
theorem occF_cons (hd : Char) (tl : List Char) (pw : Bool) (c : Char)
    (rest : List Char) :
    occF hd tl pw (c :: rest)
      = (matchHere hd tl pw (c :: rest) || occF hd tl (isWordChar c) rest) := rfl

/-- If the target pattern has no word-bounded match at a kept source
position, it has none at that position of the output either. -/
theorem kept_no_match (hd : Char) (tl : List Char) (hd' : Char) (tl' repl' : List Char)
    (H : SatHyps hd tl hd' tl' repl') (f : Nat) (pw : Bool) (c : Char)
    (rest : List Char) (hflen : rest.length ≤ f)
    (hsrc : matchHere hd tl pw (c :: rest) = false) :
    matchHere hd tl pw (c :: subF hd' tl' repl' f (isWordChar c) rest) = false := by
  by_contra hmm
  rw [Bool.not_eq_false] at hmm
  rw [matchHere] at hmm
  rcases Bool.and_eq_true_iff.mp hmm with ⟨h12, hbrO⟩
  rcases Bool.and_eq_true_iff.mp h12 with ⟨hpreO, hbl⟩
  rw [isPrefixOf_cons_cons] at hpreO
  rcases Bool.and_eq_true_iff.mp hpreO with ⟨hdc, htl⟩
  have hbr' : wOpt (((c :: subF hd' tl' repl' f (isWordChar c) rest).drop
      (tl.length + 1)).head?) = false := by
    rw [H.hlastP] at hbrO
    revert hbrO
    cases wOpt (((c :: subF hd' tl' repl' f (isWordChar c) rest).drop
      (tl.length + 1)).head?) <;> simp
  rw [List.drop_succ_cons] at hbr'
  have SP := sat_scan_core hd tl hd' tl' repl' H f (isWordChar c) rest hflen
  have hmsrc : matchHere hd tl pw (c :: rest) = true := by
    cases tl with
    | nil =>
      have h1 : wOpt rest.head? = false := by
        rw [← SP.1]
        simpa using hbr'
      rw [matchHere, isPrefixOf_cons_cons, hdc, List.drop_succ_cons]
      simp only [List.isPrefixOf, Bool.and_true, Bool.true_and, hbl, H.hlastP]
      simp [h1]
    | cons t0 tl2 =>
      have hq : 1 < (hd :: t0 :: tl2).length := by simp
      have hdrop1 : (hd :: t0 :: tl2).drop 1 = t0 :: tl2 := rfl
      have hidx : (hd :: t0 :: tl2).length - 1 = (t0 :: tl2).length := by simp
      have hrec := SP.2 1 hq (by rw [hdrop1]; exact htl)
        (by rw [hidx]; exact hbr')
      rw [hdrop1] at hrec
      rw [hidx] at hrec
      rw [matchHere, isPrefixOf_cons_cons, hdc, List.drop_succ_cons]
      simp only [Bool.true_and, hbl, H.hlastP, hrec.1]
      simpa using hrec.2
  rw [hmsrc] at hsrc
  exact Bool.noConfusion hsrc

/-- After applying a rule to a text, no word-bounded occurrence of that
rule's own pattern remains (under the side conditions). -/
theorem sat_same (hd : Char) (tl repl : List Char)
    (H : SatHyps hd tl hd tl repl) :
    ∀ (f : Nat) (pw : Bool) (s : List Char), s.length ≤ f →
      occF hd tl pw (subF hd tl repl f pw s) = false := by
  intro f
  induction f with
  | zero =>
    intro pw s hf
    have hs : s = [] := List.length_eq_zero.mp (Nat.le_zero.mp hf)
    subst hs
    rw [subF_nil]
    rfl
  | succ f ih =>
    intro pw s hf
    cases s with
    | nil => rw [subF_nil]; rfl
    | cons c rest =>
      by_cases hm : matchHere hd tl pw (c :: rest) = true
      · rw [subF_cons, if_pos hm]
        rw [occF_seg hd tl repl _ pw (fun x hx => H.hhdR x hx)]
        rw [pwAfter_ne_nil _ _ H.hrne, H.hrl, H.hlastP]
        exact ih true (rest.drop tl.length)
          (by
            have h1 := List.length_drop tl.length rest
            simp only [List.length_cons] at hf
            omega)
      · rw [subF_cons, if_neg hm]
        rw [occF_cons]
        rw [kept_no_match hd tl hd tl repl H f pw c rest
          (by simpa using hf) (Bool.not_eq_true _ ▸ (by simpa using hm))]
        rw [Bool.false_or]
        exact ih (isWordChar c) rest (by simpa using hf)

/-- Applying a different rule preserves the absence of word-bounded
occurrences of the target pattern (under the side conditions). -/
theorem sat_other (hd : Char) (tl : List Char) (hd' : Char) (tl' repl' : List Char)
    (H : SatHyps hd tl hd' tl' repl') :
    ∀ (f : Nat) (pw : Bool) (s : List Char), s.length ≤ f →
      occF hd tl pw s = false →
      occF hd tl pw (subF hd' tl' repl' f pw s) = false := by
  intro f
  induction f with
  | zero =>
    intro pw s hf _
    have hs : s = [] := List.length_eq_zero.mp (Nat.le_zero.mp hf)
    subst hs
    rw [subF_nil]
    rfl
  | succ f ih =>
    intro pw s hf hin
    cases s with
    | nil => rw [subF_nil]; rfl
    | cons c rest =>
      rw [occF_cons] at hin
      rcases Bool.or_eq_false_iff.mp hin with ⟨hin1, hin2⟩
      by_cases hm : matchHere hd' tl' pw (c :: rest) = true
      · rw [subF_cons, if_pos hm]
        rw [occF_seg hd tl repl' _ pw (fun x hx => H.hhdR x hx)]
        rw [pwAfter_ne_nil _ _ H.hrne, H.hrl, H.hlast']
        have hpre' : (hd' :: tl').isPrefixOf (c :: rest) = true := by
          rw [matchHere] at hm
          exact (Bool.and_eq_true_iff.mp (Bool.and_eq_true_iff.mp hm).1).1
        have hdecomp : c :: rest = (hd' :: tl') ++ (rest.drop tl'.length) := by
          have h1 := eq_append_drop_of_isPrefixOf _ _ hpre'
          rw [List.length_cons, List.drop_succ_cons] at h1
          exact h1
        have hin3 : occF hd tl (pwAfter pw (hd' :: tl')) (rest.drop tl'.length)
            = false := by
          apply occF_false_append
          rw [← hdecomp]
          rw [occF_cons]
          rw [hin1, hin2]
          rfl
        have hpwa : pwAfter pw (hd' :: tl') = true := by
          rw [pwAfter_ne_nil _ _ (by simp), getLast?_cons_getLastD]
          rw [wOpt]
          exact H.hlast'
        rw [hpwa] at hin3
        exact ih true (rest.drop tl'.length)
          (by
            have h1 := List.length_drop tl'.length rest
            simp only [List.length_cons] at hf
            omega)
          hin3
      · rw [subF_cons, if_neg hm]
        rw [occF_cons]
        rw [kept_no_match hd tl hd' tl' repl' H f pw c rest
          (by simpa using hf) hin1]
        rw [Bool.false_or]
        exact ih (isWordChar c) rest (by simpa using hf) hin2

/-- Top-level wrapper: a rule's own pattern does not occur word-bounded
in its output. -/
theorem occursPat_reSubWord_self (hd : Char) (tl repl : List Char)
    (H : SatHyps hd tl hd tl repl) (s : List Char) :
    occursPat (hd :: tl) (reSubWord (hd :: tl) repl s) = false := by
  rw [reSubWord, occursPat]
  exact sat_same hd tl repl H s.length false s le_rfl

/-- Top-level wrapper: applying another rule preserves the absence of
word-bounded occurrences. -/
theorem occursPat_reSubWord_other (hd : Char) (tl : List Char) (hd' : Char)
    (tl' repl' : List Char) (H : SatHyps hd tl hd' tl' repl') (s : List Char)
    (hin : occursPat (hd :: tl) s = false) :
    occursPat (hd :: tl) (reSubWord (hd' :: tl') repl' s) = false := by
  rw [reSubWord, occursPat]
  rw [occursPat] at hin
  exact sat_other hd tl hd' tl' repl' H s.length false s le_rfl hin

/-- After the whole replacement chain, no recognized pattern occurs
word-bounded in the result. -/
theorem no_occ_after_apply (s : List Char) :
    occursPat "console.log".data (applyConsoleReplacements s) = false
    ∧ occursPat "console.error".data (applyConsoleReplacements s) = false
    ∧ occursPat "console.warn".data (applyConsoleReplacements s) = false
    ∧ occursPat "console.info".data (applyConsoleReplacements s) = false
    ∧ occursPat "console.debug".data (applyConsoleReplacements s) = false := by
  rw [applyConsoleReplacements_eq]
  refine ⟨?_, ?_, ?_, ?_, ?_⟩
  · apply occursPat_reSubWord_other _ _ _ _ _ (by constructor <;> decide)
    apply occursPat_reSubWord_other _ _ _ _ _ (by constructor <;> decide)
    apply occursPat_reSubWord_other _ _ _ _ _ (by constructor <;> decide)
    apply occursPat_reSubWord_other _ _ _ _ _ (by constructor <;> decide)
    exact occursPat_reSubWord_self _ _ _ (by constructor <;> decide) s
  · apply occursPat_reSubWord_other _ _ _ _ _ (by constructor <;> decide)
    apply occursPat_reSubWord_other _ _ _ _ _ (by constructor <;> decide)
    apply occursPat_reSubWord_other _ _ _ _ _ (by constructor <;> decide)
    exact occursPat_reSubWord_self _ _ _ (by constructor <;> decide) _
  · apply occursPat_reSubWord_other _ _ _ _ _ (by constructor <;> decide)
    apply occursPat_reSubWord_other _ _ _ _ _ (by constructor <;> decide)
    exact occursPat_reSubWord_self _ _ _ (by constructor <;> decide) _
  · apply occursPat_reSubWord_other _ _ _ _ _ (by constructor <;> decide)
    exact occursPat_reSubWord_self _ _ _ (by constructor <;> decide) _
  · exact occursPat_reSubWord_self _ _ _ (by constructor <;> decide) _

/-- No recognized rule matches the output of the replacement chain. -/
theorem occursAnyRule_applyAll (s : List Char) :
    occursAnyRule (applyConsoleReplacements s) = false := by
  have h := no_occ_after_apply s
  rw [occursAnyRule, h.1, h.2.1, h.2.2.1, h.2.2.2.1, h.2.2.2.2]
  rfl

/-- The replacement chain is idempotent. -/
theorem applyConsoleReplacements_idem (s : List Char) :
    applyConsoleReplacements (applyConsoleReplacements s)
      = applyConsoleReplacements s :=
  applyConsoleReplacements_of_no_occ _ (occursAnyRule_applyAll s)

/-!  ## Newline splice lemmas: inserting a line preserves no-occurrence  -/

/-- A newline-free pattern's prefix test cannot see past a newline. -/
theorem isPrefixOf_nl_stable : ∀ (A P X Y : List Char), '\n' ∉ P →
    P.isPrefixOf (A ++ '\n' :: X) = P.isPrefixOf (A ++ '\n' :: Y) := by
  intro A
  induction A with
  | nil =>
    intro P X Y hP
    cases P with
    | nil => rfl
    | cons p P' =>
      have hp : (p == '\n') = false :=
        beq_eq_false_iff_ne.mpr (fun h => hP (h ▸ List.mem_cons_self p P'))
      rw [List.nil_append, List.nil_append, isPrefixOf_cons_cons,
        isPrefixOf_cons_cons, hp]
      simp
  | cons a A' ih =>
    intro P X Y hP
    cases P with
    | nil => rfl
    | cons p P' =>
      rw [List.cons_append, List.cons_append, isPrefixOf_cons_cons,
        isPrefixOf_cons_cons,
        ih P' X Y (fun h => hP (List.mem_cons.mpr (Or.inr h)))]

/-- A newline-free pattern matching before an inserted newline fits in
the part before it. -/
theorem isPrefixOf_nl_fits : ∀ (A P X : List Char), '\n' ∉ P →
    P.isPrefixOf (A ++ '\n' :: X) = true → P.length ≤ A.length := by
  intro A
  induction A with
  | nil =>
    intro P X hP h
    cases P with
    | nil => simp
    | cons p P' =>
      rw [List.nil_append, isPrefixOf_cons_cons] at h
      have hp := eq_of_beq (Bool.and_eq_true_iff.mp h).1
      exact absurd (hp ▸ List.mem_cons_self p P') hP
  | cons a A' ih =>
    intro P X hP h
    cases P with
    | nil => simp
    | cons p P' =>
      rw [List.cons_append, isPrefixOf_cons_cons] at h
      have := ih P' X (fun hx => hP (List.mem_cons.mpr (Or.inr hx)))
        (Bool.and_eq_true_iff.mp h).2
      simpa using this

/-- Word status at a position inside the left part does not depend on
what follows the separating newline. -/
theorem wOpt_drop_nl_stable : ∀ (A : List Char) (n : Nat) (X Y : List Char),
    n ≤ A.length →
    wOpt (((A ++ '\n' :: X).drop n).head?) = wOpt (((A ++ '\n' :: Y).drop n).head?) := by
  intro A
  induction A with
  | nil =>
    intro n X Y hn
    have : n = 0 := Nat.le_zero.mp (by simpa using hn)
    subst this
    rfl
  | cons a A' ih =>
    intro n X Y hn
    cases n with
    | zero => rfl
    | succ n' =>
      rw [List.cons_append, List.drop_succ_cons, List.cons_append,
        List.drop_succ_cons]
      exact ih n' X Y (by simpa using hn)

/-- Word status at a position inside a text does not change when a
newline-led suffix is appended. -/
theorem wOpt_drop_nl_ext : ∀ (A : List Char) (n : Nat) (Z : List Char),
    n ≤ A.length →
    wOpt (((A ++ '\n' :: Z).drop n).head?) = wOpt ((A.drop n).head?) := by
  intro A
  induction A with
  | nil =>
    intro n Z hn
    have : n = 0 := Nat.le_zero.mp (by simpa using hn)
    subst this
    show wOpt (some '\n') = wOpt none
    decide
  | cons a A' ih =>
    intro n Z hn
    cases n with
    | zero => rfl
    | succ n' =>
      rw [List.cons_append, List.drop_succ_cons, List.drop_succ_cons]
      exact ih n' Z (by simpa using hn)

/-- A pattern starting with a non-newline character never matches at a
newline. -/
theorem matchHere_nl (hd : Char) (tl : List Char) (pw : Bool) (Z : List Char)
    (h : hd ≠ '\n') : matchHere hd tl pw ('\n' :: Z) = false := by
  rw [matchHere, isPrefixOf_cons_cons, beq_eq_false_iff_ne.mpr h]
  simp

/-- The match test before a separating newline does not depend on what
follows it. -/
theorem matchHere_nl_stable (hd : Char) (tl : List Char) (hnl : '\n' ∉ (hd :: tl)) :
    ∀ (A X Y : List Char) (pw : Bool),
      matchHere hd tl pw (A ++ '\n' :: X) = matchHere hd tl pw (A ++ '\n' :: Y) := by
  intro A X Y pw
  by_cases hp : (hd :: tl).isPrefixOf (A ++ '\n' :: X) = true
  · have hp2 : (hd :: tl).isPrefixOf (A ++ '\n' :: Y) = true := by
      rw [← isPrefixOf_nl_stable A (hd :: tl) X Y hnl]
      exact hp
    have hfit : (hd :: tl).length ≤ A.length := isPrefixOf_nl_fits A _ X hnl hp
    rw [matchHere, matchHere, hp, hp2]
    have hb := wOpt_drop_nl_stable A (tl.length + 1) X Y (by simpa using hfit)
    rw [hb]
  · have hp' : (hd :: tl).isPrefixOf (A ++ '\n' :: X) = false :=
      Bool.not_eq_true _ ▸ eq_false_of_ne_true hp
    have hp2 : (hd :: tl).isPrefixOf (A ++ '\n' :: Y) = false := by
      rw [← isPrefixOf_nl_stable A (hd :: tl) X Y hnl]
      exact hp'
    rw [matchHere, matchHere, hp', hp2]
    simp

/-- The match test inside a text does not change when a newline-led
suffix is appended. -/
theorem matchHere_nl_ext (hd : Char) (tl : List Char) (hnl : '\n' ∉ (hd :: tl)) :
    ∀ (A Z : List Char) (pw : Bool),
      matchHere hd tl pw A = false → matchHere hd tl pw (A ++ '\n' :: Z) = false := by
  intro A Z pw hsrc
  by_contra hmm
  rw [Bool.not_eq_false, matchHere] at hmm
  rcases Bool.and_eq_true_iff.mp hmm with ⟨h12, hbr⟩
  rcases Bool.and_eq_true_iff.mp h12 with ⟨hpre, hbl⟩
  have hfit : (hd :: tl).length ≤ A.length := isPrefixOf_nl_fits A _ Z hnl hpre
  have hpreA : (hd :: tl).isPrefixOf A = true :=
    isPrefixOf_append_elim_left A _ ('\n' :: Z) hpre hfit
  have hbrA : (isWordChar (tl.getLastD hd)
      != wOpt ((A.drop (tl.length + 1)).head?)) = true := by
    rw [← wOpt_drop_nl_ext A (tl.length + 1) Z (by simpa using hfit)]
    exact hbr
  rw [matchHere, hpreA, hbl, hbrA] at hsrc
  exact Bool.noConfusion hsrc

/-- Splicing a line (led and followed by newlines) into a text at a
newline preserves the absence of word-bounded occurrences of a
newline-free pattern that does not start inside the new line. -/
theorem occF_splice (hd : Char) (tl : List Char) (hnl : '\n' ∉ (hd :: tl))
    (mid : List Char) (hmid : ∀ x ∈ mid, x ≠ hd) :
    ∀ (A B : List Char) (pw : Bool),
      occF hd tl pw (A ++ '\n' :: B) = false →
      occF hd tl pw (A ++ '\n' :: (mid ++ '\n' :: B)) = false := by
  have hhd : hd ≠ '\n' := fun h => hnl (h ▸ List.mem_cons_self hd tl)
  intro A
  induction A with
  | nil =>
    intro B pw h
    rw [List.nil_append] at h ⊢
    rw [occF_cons] at h ⊢
    rcases Bool.or_eq_false_iff.mp h with ⟨_, h2⟩
    rw [matchHere_nl hd tl pw _ hhd, Bool.false_or]
    rw [occF_seg hd tl mid ('\n' :: B) (isWordChar '\n') hmid]
    rw [occF_cons, matchHere_nl hd tl _ _ hhd, Bool.false_or]
    have hw : isWordChar '\n' = false := by decide
    rw [hw] at h2 ⊢
    exact h2
  | cons a A' ih =>
    intro B pw h
    rw [List.cons_append] at h ⊢
    rw [occF_cons] at h ⊢
    rcases Bool.or_eq_false_iff.mp h with ⟨h1, h2⟩
    rw [← List.cons_append] at h1 ⊢
    rw [matchHere_nl_stable hd tl hnl (a :: A') (mid ++ '\n' :: B) B pw, h1,
      Bool.false_or]
    exact ih B (isWordChar a) h2

/-- Prepending a line (followed by a newline) preserves the absence of
occurrences, starting from the non-word initial state. -/
theorem occF_prepend (hd : Char) (tl : List Char) (hnl : '\n' ∉ (hd :: tl))
    (mid : List Char) (hmid : ∀ x ∈ mid, x ≠ hd) (B : List Char)
    (h : occF hd tl false B = false) :
    occF hd tl false (mid ++ '\n' :: B) = false := by
  have hhd : hd ≠ '\n' := fun hx => hnl (hx ▸ List.mem_cons_self hd tl)
  rw [occF_seg hd tl mid ('\n' :: B) false hmid]
  rw [occF_cons, matchHere_nl hd tl _ _ hhd, Bool.false_or]
  have hw : isWordChar '\n' = false := by decide
  rw [hw]
  exact h

/-- Appending a newline plus a line preserves the absence of
occurrences. -/
theorem occF_append_line (hd : Char) (tl : List Char) (hnl : '\n' ∉ (hd :: tl))
    (mid : List Char) (hmid : ∀ x ∈ mid, x ≠ hd) :
    ∀ (A : List Char) (pw : Bool),
      occF hd tl pw A = false →
      occF hd tl pw (A ++ '\n' :: mid) = false := by
  have hhd : hd ≠ '\n' := fun hx => hnl (hx ▸ List.mem_cons_self hd tl)
  intro A
  induction A with
  | nil =>
    intro pw _
    rw [List.nil_append, occF_cons, matchHere_nl hd tl _ _ hhd, Bool.false_or]
    rw [show mid = mid ++ [] from (List.append_nil mid).symm,
      occF_seg hd tl mid [] _ hmid]
    rfl
  | cons a A' ih =>
    intro pw h
    rw [occF_cons] at h
    rcases Bool.or_eq_false_iff.mp h with ⟨h1, h2⟩
    rw [List.cons_append, occF_cons, ← List.cons_append]
    rw [matchHere_nl_ext hd tl hnl (a :: A') mid pw h1, Bool.false_or]
    exact ih (isWordChar a) h2

/-- `joinNl` on a cons with a nonempty tail. -/
theorem joinNl_cons (l : List Char) (ls : List (List Char)) (h : ls ≠ []) :
    joinNl (l :: ls) = l ++ '\n' :: joinNl ls := by
  cases ls with
  | nil => exact absurd rfl h
  | cons l' ls' => rfl

/-- `joinNl` distributes over an append of nonempty line lists. -/
theorem joinNl_append (X Y : List (List Char)) (hX : X ≠ []) (hY : Y ≠ []) :
    joinNl (X ++ Y) = joinNl X ++ '\n' :: joinNl Y := by
  induction X with
  | nil => exact absurd rfl hX
  | cons x X' ih =>
    cases X' with
    | nil =>
      rw [List.cons_append, List.nil_append, joinNl_cons x Y hY, joinNl]
    | cons x2 X'' =>
      rw [List.cons_append,
        joinNl_cons x ((x2 :: X'') ++ Y) (by simp),
        joinNl_cons x (x2 :: X'') (by simp),
        ih (by simp), List.append_assoc]
      rfl

/-- Inserting a pattern-free line at any list position preserves the
absence of word-bounded occurrences of a newline-free pattern in the
joined text. -/
theorem occursPat_insert (hd : Char) (tl : List Char) (hnl : '\n' ∉ (hd :: tl))
    (imp : List Char) (himp : ∀ x ∈ imp, x ≠ hd)
    (lines : List (List Char)) (j : Nat) (hne : lines ≠ [])
    (h : occursPat (hd :: tl) (joinNl lines) = false) :
    occursPat (hd :: tl) (joinNl (pyInsert lines j imp)) = false := by
  rw [occursPat] at h ⊢
  rcases Nat.eq_zero_or_pos j with hj0 | hj1
  · subst hj0
    rw [pyInsert, List.take_zero, List.drop_zero, List.nil_append,
      joinNl_cons imp lines hne]
    exact occF_prepend hd tl hnl imp himp _ h
  · rcases Nat.lt_or_ge j lines.length with hjlt | hjge
    · have htake : lines.take j ≠ [] := by
        intro hx
        have := congrArg List.length hx
        simp [Nat.min_eq_left (Nat.le_of_lt hjlt)] at this
        omega
      have hdrop : lines.drop j ≠ [] := by
        intro hx
        have := congrArg List.length hx
        simp at this
        omega
      have hsplit : joinNl lines
          = joinNl (lines.take j) ++ '\n' :: joinNl (lines.drop j) := by
        conv_lhs => rw [← List.take_append_drop j lines]
        exact joinNl_append _ _ htake hdrop
      rw [pyInsert, joinNl_append _ _ htake (by simp),
        joinNl_cons imp _ hdrop]
      rw [hsplit] at h
      exact occF_splice hd tl hnl imp himp _ _ false h
    · have hpy : pyInsert lines j imp = lines ++ [imp] := by
        rw [pyInsert, List.take_of_length_le hjge, List.drop_of_length_le hjge]
      rw [hpy, joinNl_append lines [imp] hne (by simp), joinNl]
      exact occF_append_line hd tl hnl imp himp _ false h

/-!  ## Claim C7: running the rewriter twice changes nothing further  -/

/-- The server rewriter leaves a replacement fixed point untouched. -/
theorem migrate_file_of_fix (fp t : List Char)
    (h : applyConsoleReplacements t = t) : migrate_file fp t = ⟨t, false⟩ := by
  rw [migrate_file, if_pos (by rw [h]; exact beq_self_eq_true t)]

/-- The client rewriter leaves a replacement fixed point untouched. -/
theorem client_migrate_file_of_fix (fp t : List Char)
    (h : applyConsoleReplacements t = t) : client_migrate_file fp t = ⟨t, false⟩ := by
  rw [client_migrate_file, ← applyConsoleReplacements_eq,
    if_pos (by rw [h]; exact beq_self_eq_true t)]

/-- Inserting an import line free of the letter `c` into the lines of a
pattern-free text keeps every rule pattern absent. -/
theorem occursAnyRule_insert (t imp : List Char) (j : Nat)
    (hocc : occursAnyRule t = false) (himp : ∀ x ∈ imp, x ≠ 'c') :
    occursAnyRule (joinNl (pyInsert (splitNl t) j imp)) = false := by
  have hne := splitNl_ne_nil t
  have hjoin : joinNl (splitNl t) = t := joinNl_splitNl t
  rw [occursAnyRule] at hocc
  rcases Bool.or_eq_false_iff.mp hocc with ⟨h4, h5⟩
  rcases Bool.or_eq_false_iff.mp h4 with ⟨h3, h4'⟩
  rcases Bool.or_eq_false_iff.mp h3 with ⟨h2, h3'⟩
  rcases Bool.or_eq_false_iff.mp h2 with ⟨h1', h2'⟩
  have ha : occursPat "console.log".data (joinNl (pyInsert (splitNl t) j imp))
      = false :=
    occursPat_insert 'c' "onsole.log".data (by decide) imp himp (splitNl t) j hne
      (by rw [hjoin]; exact h1')
  have hb : occursPat "console.error".data (joinNl (pyInsert (splitNl t) j imp))
      = false :=
    occursPat_insert 'c' "onsole.error".data (by decide) imp himp (splitNl t) j hne
      (by rw [hjoin]; exact h2')
  have hc : occursPat "console.warn".data (joinNl (pyInsert (splitNl t) j imp))
      = false :=
    occursPat_insert 'c' "onsole.warn".data (by decide) imp himp (splitNl t) j hne
      (by rw [hjoin]; exact h3')
  have hd' : occursPat "console.info".data (joinNl (pyInsert (splitNl t) j imp))
      = false :=
    occursPat_insert 'c' "onsole.info".data (by decide) imp himp (splitNl t) j hne
      (by rw [hjoin]; exact h4')
  have he : occursPat "console.debug".data (joinNl (pyInsert (splitNl t) j imp))
      = false :=
    occursPat_insert 'c' "onsole.debug".data (by decide) imp himp (splitNl t) j hne
      (by rw [hjoin]; exact h5)
  rw [occursAnyRule, ha, hb, hc, hd', he]
  rfl

/-- C7: running `migrate_file` a second time on the result of the first
run produces no further change - the second run reports no change, keeps
the contents byte-identical (so no second import line and no further
replacement), for both the server and the client rewriter. -/
theorem migrate_file_idempotent (fp c : List Char) :
    migrate_file fp ((migrate_file fp c).newContent)
        = ⟨(migrate_file fp c).newContent, false⟩
    ∧ client_migrate_file fp ((client_migrate_file fp c).newContent)
        = ⟨(client_migrate_file fp c).newContent, false⟩ := by
  constructor
  · by_cases hch : (applyConsoleReplacements c == c) = true
    · have h1 : migrate_file fp c = ⟨c, false⟩ := by
        rw [migrate_file, if_pos hch]
      rw [h1]
      exact migrate_file_of_fix fp c (eq_of_beq hch)
    · have hch' : (applyConsoleReplacements c == c) = false :=
        Bool.eq_false_iff.mpr hch
      by_cases hmk : containsSub c loggerImportMarker = true
      · have h1 : migrate_file fp c = ⟨applyConsoleReplacements c, true⟩ := by
          rw [migrate_file]
          simp [hch', hmk]
        rw [h1]
        exact migrate_file_of_fix fp _ (applyConsoleReplacements_idem c)
      · have hmk' : containsSub c loggerImportMarker = false :=
          Bool.eq_false_iff.mpr hmk
        rw [migrate_file_insert_eq fp c hch' hmk']
        rcases insertImport_is_pyInsert (splitNl (applyConsoleReplacements c))
          (getLoggerImportForPath fp)
          (findLastImportIndex (splitNl (applyConsoleReplacements c))) with ⟨j, hj⟩
        have hfix : applyConsoleReplacements
            (joinNl (insertImport (splitNl (applyConsoleReplacements c))
              (getLoggerImportForPath fp)
              (findLastImportIndex (splitNl (applyConsoleReplacements c)))))
            = joinNl (insertImport (splitNl (applyConsoleReplacements c))
              (getLoggerImportForPath fp)
              (findLastImportIndex (splitNl (applyConsoleReplacements c)))) := by
          rw [hj]
          exact applyConsoleReplacements_of_no_occ _
            (occursAnyRule_insert (applyConsoleReplacements c) _ j
              (occursAnyRule_applyAll c) (getLoggerImportForPath_no_c fp))
        exact migrate_file_of_fix fp _ hfix
  · by_cases hch : (applyConsoleReplacements c == c) = true
    · have h1 : client_migrate_file fp c = ⟨c, false⟩ := by
        rw [client_migrate_file, ← applyConsoleReplacements_eq, if_pos hch]
      rw [h1]
      exact client_migrate_file_of_fix fp c (eq_of_beq hch)
    · have hch' : (applyConsoleReplacements c == c) = false :=
        Bool.eq_false_iff.mpr hch
      by_cases hmk : containsSub c loggerImportMarker = true
      · have h1 : client_migrate_file fp c = ⟨applyConsoleReplacements c, true⟩ := by
          rw [client_migrate_file, ← applyConsoleReplacements_eq]
          simp [hch', hmk]
        rw [h1]
        exact client_migrate_file_of_fix fp _ (applyConsoleReplacements_idem c)
      · have hmk' : containsSub c loggerImportMarker = false :=
          Bool.eq_false_iff.mpr hmk
        rw [client_migrate_file_insert_eq fp c hch' hmk']
        by_cases hidx : 0 ≤ findLastImportIndex (splitNl (applyConsoleReplacements c))
        · rw [if_pos hidx]
          exact client_migrate_file_of_fix fp _
            (applyConsoleReplacements_of_no_occ _
              (occursAnyRule_insert (applyConsoleReplacements c) _ _
                (occursAnyRule_applyAll c) (clientLoggerImportForPath_no_c fp)))
        · rw [if_neg hidx]
          exact client_migrate_file_of_fix fp _
            (applyConsoleReplacements_of_no_occ _
              (occursAnyRule_insert (applyConsoleReplacements c) _ _
                (occursAnyRule_applyAll c) (clientLoggerImportForPath_no_c fp)))
